import Mathlib

/-!
# olx-car-finder — verification of the core pipeline

Shallow embedding of the core of the `olx-car-finder` repository
(`src/services/olx-fetcher.ts`, the diff-engine half of the same file, and the
opportunity scorer of `src/index.ts`), together with theorems settling the
frozen claims about it.

Modelling conventions:
* JavaScript strings are Lean `String`s; most character-level work is done on
  `String.data : List Char`.  `String.prototype.trim`, `\s` and case-insensitive
  matching are modelled for ASCII whitespace / ASCII letters (all fixed word
  lists in the source are ASCII).
* JS `null`/`undefined` string fields are `Option String`, with `none` for the
  absent value; JS truthiness of a string value (`""` is falsy) is modelled
  explicitly where the source relies on it.
* JS numbers are modelled as exact rationals `ℚ`; arithmetic is written with
  `Rat.divInt`-based operations (`jsAdd`, `jsMul`, …) so that every model
  computation reduces inside the kernel, and bridge lemmas equate them with the
  ordinary `ℚ` operations.
* The D1/SQLite `seen_ids` table for one search is a list of rows in insertion
  order; `datetime('now')` timestamps are naturals.  The SQL statements of
  `addSeenIds` are embedded operation by operation.
* Code that can throw a `TypeError` on dynamically-shaped input (`parseAd` on a
  property entry without a string `label`/`value`) is embedded in `Except`;
  network fetching is abstracted by an environment of response oracles.
-/

/-! ## JS string helpers -/

/-- JS truthiness of a string-or-absent value: `undefined`/`null` and `""` are
falsy. -/
def jsTruthyStr (o : Option String) : Bool :=
  match o with
  | none => false
  | some s => !(s.isEmpty)

/-- JS `x || null` on a string-or-absent value: an empty string collapses to
`null`. -/
def jsOrNull (o : Option String) : Option String :=
  match o with
  | none => none
  | some s => if s.isEmpty then none else some s

/-- ASCII lower-casing of a string, modelling the effect of
`String.prototype.toLowerCase` / the `i` regex flag on the ASCII inputs the
source compares against. -/
def lowerStr (s : String) : String :=
  String.mk (s.data.map Char.toLower)

/-- `prefixChars n h` holds when `n` is a prefix of `h` (boolean version). -/
def prefixChars : List Char → List Char → Bool
  | [], _ => true
  | _ :: _, [] => false
  | a :: as, b :: bs => a == b && prefixChars as bs

/-- `substrChars n h`: `n` occurs as a contiguous substring of `h`; models
JS `String.prototype.includes`. -/
def substrChars (n : List Char) : List Char → Bool
  | [] => n.isEmpty
  | c :: t => prefixChars n (c :: t) || substrChars n t

theorem prefixChars_iff (n h : List Char) : prefixChars n h = true ↔ n <+: h := by
  induction n generalizing h with
  | nil =>
    rw [show prefixChars [] h = true from rfl]
    simp only [true_iff]
    exact List.nil_prefix
  | cons a as ih =>
    cases h with
    | nil =>
      rw [show prefixChars (a :: as) [] = false from rfl]
      simp
    | cons b bs =>
      rw [show prefixChars (a :: as) (b :: bs) = (a == b && prefixChars as bs) from rfl]
      simp only [Bool.and_eq_true, beq_iff_eq, ih bs, List.cons_prefix_cons]

theorem substrChars_iff (n h : List Char) : substrChars n h = true ↔ n <:+: h := by
  induction h with
  | nil =>
    rw [show substrChars n [] = n.isEmpty from rfl]
    constructor
    · intro he
      rw [List.isEmpty_iff.mp he]
    · intro hi
      rw [List.eq_nil_of_infix_nil hi]
      rfl
  | cons c t ih =>
    rw [show substrChars n (c :: t) = (prefixChars n (c :: t) || substrChars n t) from rfl]
    simp only [Bool.or_eq_true, prefixChars_iff, ih, List.infix_cons_iff]

/-- JS `hay.includes(needle)` on strings. -/
def strIncludes (hay needle : String) : Bool :=
  substrChars needle.data hay.data

/-! ## The `Listing` record (the canonical normalized listing)

Fields exactly as produced by `parseAd` in `src/services/olx-fetcher.ts`
(the `brand` field of the TS `Listing` interface is never set by `parseAd`
and is omitted). -/

structure Listing where
  list_id : String
  search_id : String
  subject : Option String
  price : Option String
  municipality : Option String
  neighbourhood : Option String
  ad_url : String
  model : Option String
  date_ts : Option String
  thumbnail_url : Option String
  mileage : Option Nat
  collected_at : String
deriving DecidableEq, Repr

/-! ## Diff engine: `computeDiff` (claim C1)

Source (diff-engine part of `olx-fetcher.ts`):
```ts
export function computeDiff(currentListings, seenIds) {
  return currentListings.filter(listing => !seenIds.has(listing.list_id));
}
```
The JS `Set<string>` of seen ids is modelled by a `List String` together with
membership testing. -/

def computeDiff (currentListings : List Listing) (seenIds : List String) : List Listing :=
  currentListings.filter (fun listing => !(seenIds.contains listing.list_id))

/-! ## Filter engine: `applyModelFilters` (claim C8)

The guard in both filters is the source's `if (!listing.model) ...`: JS
truthiness, falsy for a missing model AND for the empty-string model
(`jsTruthyStr`); the subsequent `listing.model!` access is `Option.getD`
under that guard. -/

def applyModelFilters (listings : List Listing) (whitelist blacklist : List String) :
    List Listing :=
  let filtered := listings
  let filtered :=
    if whitelist.length > 0 then
      let whitelistLower := whitelist.map lowerStr
      filtered.filter (fun listing =>
        if !(jsTruthyStr listing.model) then false
        else whitelistLower.any (fun w => strIncludes (lowerStr (listing.model.getD "")) w))
    else filtered
  let filtered :=
    if blacklist.length > 0 then
      let blacklistLower := blacklist.map lowerStr
      filtered.filter (fun listing =>
        if !(jsTruthyStr listing.model) then true
        else !(blacklistLower.any (fun b => strIncludes (lowerStr (listing.model.getD "")) b)))
    else filtered
  filtered

/-- C1: `computeDiff(current, seen)` returns exactly the elements of `current`
whose `list_id` is not a member of `seen`; an empty `current` yields an empty
result; applying `computeDiff` a second time with the same seen-set to its own
output returns that output unchanged.  (Purity — no network or storage access,
arguments unmodified — is inherent in the functional embedding: `computeDiff`
is a pure function of its two arguments.) -/
theorem computeDiff_spec (current : List Listing) (seen : List String) :
    (∀ l : Listing, l ∈ computeDiff current seen ↔ l ∈ current ∧ l.list_id ∉ seen) ∧
    computeDiff [] seen = [] ∧
    computeDiff (computeDiff current seen) seen = computeDiff current seen := by
  refine ⟨?_, rfl, ?_⟩
  · intro l
    simp [computeDiff, List.mem_filter, List.contains, List.elem_iff]
  · simp only [computeDiff, List.filter_filter]
    congr 1
    funext l
    exact (Bool.and_self _)

/-- A case-insensitive-substring pass of one term over a model string, as a
proposition: the lower-cased term's characters occur inside the lower-cased
model's characters. -/
def termHitsModel (term m : String) : Prop :=
  (lowerStr term).data <:+: (lowerStr m).data

instance (term m : String) : Decidable (termHitsModel term m) := by
  unfold termHitsModel; infer_instance

/-- The whitelist predicate of `applyModelFilters`, unfolded to a proposition:
the model must be present AND non-empty (JS truthiness) and contain a term. -/
theorem whitePass_iff (wl : List String) (l : Listing) :
    ((if !(jsTruthyStr l.model) then false
      else (wl.map lowerStr).any (fun w => strIncludes (lowerStr (l.model.getD "")) w)) = true)
      ↔ ∃ m, l.model = some m ∧ m ≠ "" ∧ ∃ w ∈ wl, termHitsModel w m := by
  cases hm : l.model with
  | none => simp [jsTruthyStr]
  | some m =>
    by_cases hme : m = ""
    · subst hme
      simp [jsTruthyStr, show ("" : String).isEmpty = true from rfl]
    · have hie : m.isEmpty = false := by
        rcases hb : m.isEmpty with _ | _
        · rfl
        · exact absurd ((String.isEmpty_iff m).mp hb) hme
      simp [jsTruthyStr, hie, hme, termHitsModel, strIncludes, substrChars_iff]

/-- The blacklist predicate of `applyModelFilters`, unfolded to a proposition:
a listing with a falsy (absent or empty) model is always kept. -/
theorem blackPass_iff (bl : List String) (l : Listing) :
    ((if !(jsTruthyStr l.model) then true
      else !((bl.map lowerStr).any (fun b => strIncludes (lowerStr (l.model.getD "")) b))) = true)
      ↔ ∀ m, l.model = some m → m ≠ "" → ¬ ∃ b ∈ bl, termHitsModel b m := by
  cases hm : l.model with
  | none => simp [jsTruthyStr]
  | some m =>
    by_cases hme : m = ""
    · subst hme
      simp [jsTruthyStr, show ("" : String).isEmpty = true from rfl]
    · have hie : m.isEmpty = false := by
        rcases hb : m.isEmpty with _ | _
        · rfl
        · exact absurd ((String.isEmpty_iff m).mp hb) hme
      simp [jsTruthyStr, hie, hme, termHitsModel, strIncludes, substrChars_iff]

/-- A sample listing with only an id and a model, used by concrete examples. -/
def sampleListing (id : String) (model : Option String) : Listing :=
  { list_id := id, search_id := "s1", subject := none, price := none,
    municipality := none, neighbourhood := none, ad_url := "", model := model,
    date_ts := none, thumbnail_url := none, mileage := none, collected_at := "" }

/-- C8 counterexample: the claim keeps a whitelist-passing listing whenever its
model is *non-absent* and contains a term, and never blacklist-drops only
*absent*-model listings; but the source's guard `!listing.model` is JS-falsy
for the empty-string model too (and `model = ""` is reachable from `parseAd`,
claim C10).  With model `some ""` and the whitelist `[""]`, the empty model
does contain the term `""` so the claim predicts the listing is kept, yet the
code drops it; with the blacklist `[""]` the claim predicts it is dropped
(its model contains the term `""`), yet the code keeps it. -/
theorem applyModelFilters_spec_counterexample :
    applyModelFilters [sampleListing "1" (some "")] [""] [] = []
    ∧ (∃ m, (sampleListing "1" (some "")).model = some m ∧ ∃ w ∈ [""], termHitsModel w m)
    ∧ applyModelFilters [sampleListing "1" (some "")] [] [""] = [sampleListing "1" (some "")]
    ∧ ¬ (∀ m, (sampleListing "1" (some "")).model = some m →
          ¬ ∃ b ∈ [""], termHitsModel b m) := by
  refine ⟨by decide, ⟨"", rfl, "", List.mem_singleton.mpr rfl, ⟨[], [], rfl⟩⟩, by decide, ?_⟩
  intro h
  exact h "" rfl ⟨"", List.mem_singleton.mpr rfl, ⟨[], [], rfl⟩⟩

/-- C8 (amended): `applyModelFilters` keeps exactly the listings that pass the
whitelist (truthy — non-absent and non-empty — model containing at least one
whitelist term, case-insensitively) and then the blacklist (model containing
no blacklist term; listings with a falsy — absent or empty — model are never
dropped by the blacklist); each filter is skipped when its list is empty.  The
last conjunct is the spec's example: whitelist `["civic"]` over models
`["Honda Civic", "Fiat Uno", null]` keeps only the `"Honda Civic"` listing. -/
theorem applyModelFilters_spec_amended (listings : List Listing) (wl bl : List String) :
    (∀ l : Listing, l ∈ applyModelFilters listings wl bl ↔
      l ∈ listings ∧
      (wl ≠ [] → ∃ m, l.model = some m ∧ m ≠ "" ∧ ∃ w ∈ wl, termHitsModel w m) ∧
      (bl ≠ [] → ∀ m, l.model = some m → m ≠ "" → ¬ ∃ b ∈ bl, termHitsModel b m)) ∧
    applyModelFilters
        [sampleListing "1" (some "Honda Civic"), sampleListing "2" (some "Fiat Uno"),
         sampleListing "3" none] ["civic"] []
      = [sampleListing "1" (some "Honda Civic")] := by
  refine ⟨?_, by decide⟩
  intro l
  unfold applyModelFilters
  by_cases hw : wl = []
  · by_cases hb : bl = []
    · simp [hw, hb]
    · have hbl : bl.length > 0 := List.length_pos.mpr hb
      simp only [hw, List.length_nil, gt_iff_lt, Nat.lt_irrefl, if_false, hbl, if_true,
        List.mem_filter, ne_eq, not_true_eq_false, false_implies, true_and,
        not_false_eq_true, forall_const]
      rw [blackPass_iff]
      simp [hb]
  · have hwl : wl.length > 0 := List.length_pos.mpr hw
    by_cases hb : bl = []
    · simp only [hwl, gt_iff_lt, if_true, hb, List.length_nil, Nat.lt_irrefl, if_false,
        List.mem_filter, ne_eq, not_false_eq_true, forall_const, not_true_eq_false,
        false_implies, and_true]
      rw [whitePass_iff]
      simp [hw]
    · have hbl : bl.length > 0 := List.length_pos.mpr hb
      simp only [hwl, hbl, gt_iff_lt, if_true, List.mem_filter, ne_eq,
        not_false_eq_true, forall_const]
      rw [whitePass_iff, blackPass_iff, and_assoc]
      simp [hw, hb]

/-! ## Listing parser: model extraction from the subject line (claims C7, C10)

Source:
```ts
export function extractModelFromSubject(subject: string): string | null {
    let text = subject.trim();
    const noise = /^(vendo|troco|compro|alugo|financio|repasso|barato|urgente|oportunidade|novo|lindo|top)\s+/i;
    text = text.replace(noise, '');
    const words = text.split(/\s+/);
    const cleanWords = words.filter(w => !/^(19|20)\d{2}$/.test(w) && !/^\d\.\d$/.test(w));
    if (cleanWords.length >= 1) {
        const specs = /^(4p|2p|flex|auto|manual|aut|mt|at)$/i;
        if (cleanWords.length >= 2 && !specs.test(cleanWords[1])) {
            return cleanWords.slice(0, 2).join(' ');
        } else { return cleanWords[0]; }
    }
    return null;
}
```
The pipeline is modelled on `List Char`.  `String.prototype.split(/\s+/)` is
modelled exactly (JS semantics): splitting the empty string yields `[""]`, and
a string beginning/ending in whitespace yields an empty leading/trailing
fragment (`jsSplitWs`); in the pipeline the input has already been trimmed, so
only the empty-string case can produce an empty fragment. -/

/-- JS `String.prototype.trim` (ASCII whitespace), on the character list. -/
def trimChars (cs : List Char) : List Char :=
  (cs.reverse.dropWhile (fun c => c.isWhitespace)).reverse.dropWhile (fun c => c.isWhitespace)

/-- Split into fragments at every whitespace character (fragments may be
empty). -/
def splitAll (cs : List Char) : List (List Char) :=
  cs.foldr
    (fun c acc =>
      if c.isWhitespace then [] :: acc
      else
        match acc with
        | [] => [[c]]
        | t :: ts => (c :: t) :: ts)
    [[]]

/-- The maximal non-whitespace runs of a character list. -/
def splitRuns (cs : List Char) : List (List Char) :=
  (splitAll cs).filter (fun t => !t.isEmpty)

/-- JS `text.split(/\s+/)`: the non-whitespace runs, plus an empty leading
(resp. trailing) fragment when the text starts (resp. ends) with whitespace;
`"".split(/\s+/)` is `[""]`. -/
def jsSplitWs (cs : List Char) : List (List Char) :=
  match cs with
  | [] => [[]]
  | c :: _ =>
    (if c.isWhitespace then [([] : List Char)] else []) ++ splitRuns cs
      ++ (if (cs.getLastD ' ').isWhitespace then [([] : List Char)] else [])

/-- The fixed leading noise-word set of the `noise` regex. -/
def noiseWords : List String :=
  ["vendo", "troco", "compro", "alugo", "financio", "repasso", "barato",
   "urgente", "oportunidade", "novo", "lindo", "top"]

/-- The spec-like second tokens of the `specs` regex. -/
def specTokens : List String :=
  ["4p", "2p", "flex", "auto", "manual", "aut", "mt", "at"]

/-- Lower-cased token as a string (for the case-insensitive word tests). -/
def lowerTok (w : List Char) : String :=
  String.mk (w.map Char.toLower)

/-- The year pattern `/^(19|20)\d{2}$/`. -/
def isYearTok (w : List Char) : Bool :=
  match w with
  | [a, b, c, d] => ((a == '1' && b == '9') || (a == '2' && b == '0')) && c.isDigit && d.isDigit
  | _ => false

/-- The engine-size pattern `/^\d\.\d$/`. -/
def isEngineTok (w : List Char) : Bool :=
  match w with
  | [a, b, c] => a.isDigit && b == '.' && c.isDigit
  | _ => false

/-- The spec-token pattern `/^(4p|2p|flex|auto|manual|aut|mt|at)$/i`. -/
def isSpecTok (w : List Char) : Bool :=
  specTokens.contains (lowerTok w)

/-- `text.replace(/^(vendo|…|top)\s+/i, '')`: the anchored regex matches exactly
when the first maximal non-whitespace token, lower-cased, is a noise word and is
followed by at least one whitespace character; the match consumes the word and
the whole whitespace run after it (greedy `\s+`). -/
def stripNoiseChars (cs : List Char) : List Char :=
  let tok := cs.takeWhile (fun c => !c.isWhitespace)
  let rest := cs.dropWhile (fun c => !c.isWhitespace)
  if noiseWords.contains (lowerTok tok) && !rest.isEmpty then
    rest.dropWhile (fun c => c.isWhitespace)
  else cs

/-- The tail of the heuristic shared by code and spec reading: filter year and
engine tokens out of the word list, then return the first one or two tokens. -/
def modelFromTokens (words : List (List Char)) : Option (List Char) :=
  let cleanWords := words.filter (fun w => !(isYearTok w) && !(isEngineTok w))
  match cleanWords with
  | [] => none
  | [w] => some w
  | w1 :: w2 :: _ => if isSpecTok w2 then some w1 else some (w1 ++ [' '] ++ w2)

/-- `extractModelFromSubject` on the character list: trim, strip one leading
noise word, split with JS `split(/\s+/)` semantics, then `modelFromTokens`. -/
def extractCore (subject : List Char) : Option (List Char) :=
  modelFromTokens (jsSplitWs (stripNoiseChars (trimChars subject)))

/-- The source's `extractModelFromSubject`. -/
def extractModelFromSubject (subject : String) : Option String :=
  (extractCore subject.data).map String.mk

/-- Modelled from the spec's words for claim C7 (the refinement target): the
same heuristic, but "split remaining text on whitespace" reads as producing the
whitespace-separated *tokens* (never an empty token), so that a text with no
tokens yields the absent result. -/
def extractModelSpecCore (subject : List Char) : Option (List Char) :=
  modelFromTokens (splitRuns (stripNoiseChars (trimChars subject)))

/-- String-level version of `extractModelSpecCore`. -/
def extractModelSpec (subject : String) : Option String :=
  (extractModelSpecCore subject.data).map String.mk

/-! ### Structural lemmas for the tokenizer -/

theorem dropWhile_head_false {α : Type} {p : α → Bool} {c : α} {t : List α} :
    ∀ {l : List α}, l.dropWhile p = c :: t → p c = false := by
  intro l
  induction l with
  | nil => intro h; simp at h
  | cons a as ih =>
    intro h
    rw [List.dropWhile_cons] at h
    by_cases hp : p a = true
    · rw [if_pos hp] at h
      exact ih h
    · rw [if_neg hp] at h
      have ha : a = c := by injection h
      rw [ha] at hp
      simpa using hp

theorem getLast?_of_suffix {α : Type} {s l : List α} (h : s <:+ l) (hne : s ≠ []) :
    l.getLast? = s.getLast? := by
  obtain ⟨t, rfl⟩ := h
  rw [List.getLast?_append]
  cases hs : s.getLast? with
  | none => exact absurd (List.getLast?_eq_none_iff.mp hs) hne
  | some c => rfl

theorem trimChars_head {cs : List Char} {c : Char} {t : List Char}
    (h : trimChars cs = c :: t) : c.isWhitespace = false :=
  dropWhile_head_false h

theorem trimChars_last {cs : List Char} {c : Char}
    (h : (trimChars cs).getLast? = some c) : c.isWhitespace = false := by
  unfold trimChars at h
  have hne : ((cs.reverse.dropWhile (fun c => c.isWhitespace)).reverse.dropWhile
      (fun c => c.isWhitespace)) ≠ [] := by
    intro he
    rw [he] at h
    simp at h
  have hsuf := List.dropWhile_suffix (l := (cs.reverse.dropWhile (fun c => c.isWhitespace)).reverse)
    (fun c => c.isWhitespace)
  have hy : ((cs.reverse.dropWhile (fun c => c.isWhitespace)).reverse).getLast? = some c :=
    (getLast?_of_suffix hsuf hne).trans h
  rw [List.getLast?_reverse] at hy
  cases hz : cs.reverse.dropWhile (fun c => c.isWhitespace) with
  | nil => rw [hz] at hy; simp at hy
  | cons a zt =>
    rw [hz] at hy
    simp only [List.head?_cons, Option.some.injEq] at hy
    subst hy
    exact dropWhile_head_false hz

theorem splitRuns_token_ne_nil {cs : List Char} {w : List Char} (h : w ∈ splitRuns cs) :
    w ≠ [] := by
  unfold splitRuns at h
  have := (List.mem_filter.mp h).2
  simpa [List.isEmpty_iff] using this

theorem jsSplitWs_eq_splitRuns {cs : List Char} (hne : cs ≠ [])
    (hhead : ∀ c t, cs = c :: t → c.isWhitespace = false)
    (hlast : ∀ c, cs.getLast? = some c → c.isWhitespace = false) :
    jsSplitWs cs = splitRuns cs := by
  cases cs with
  | nil => exact absurd rfl hne
  | cons c t =>
    have h1 : c.isWhitespace = false := hhead c t rfl
    have h2 : (((c :: t).getLast?.getD ' ')).isWhitespace = false := by
      cases hg : (c :: t).getLast? with
      | none => simp [List.getLast?_eq_none_iff] at hg
      | some x => simpa using hlast x hg
    simp [jsSplitWs, h1, List.getLastD_eq_getLast?, h2]

theorem stripNoise_props {cs : List Char} (hne : cs ≠ [])
    (hhead : ∀ c t, cs = c :: t → c.isWhitespace = false)
    (hlast : ∀ c, cs.getLast? = some c → c.isWhitespace = false) :
    stripNoiseChars cs ≠ [] ∧
    (∀ c t, stripNoiseChars cs = c :: t → c.isWhitespace = false) ∧
    (∀ c, (stripNoiseChars cs).getLast? = some c → c.isWhitespace = false) := by
  unfold stripNoiseChars
  set tok := cs.takeWhile (fun c => !c.isWhitespace) with htok
  set rest := cs.dropWhile (fun c => !c.isWhitespace) with hrest
  by_cases hcond : (noiseWords.contains (lowerTok tok) && !rest.isEmpty) = true
  · rw [if_pos hcond]
    have hrne : rest ≠ [] := by
      have := (Bool.and_eq_true _ _).mp hcond |>.2
      simpa [List.isEmpty_iff] using this
    have hrsuf : rest <:+ cs := hrest ▸ List.dropWhile_suffix _
    have hrlast : ∀ c, rest.getLast? = some c → c.isWhitespace = false := by
      intro c hc
      exact hlast c ((getLast?_of_suffix hrsuf hrne).trans hc)
    have hRsuf : rest.dropWhile (fun c => c.isWhitespace) <:+ rest := List.dropWhile_suffix _
    have hRne : rest.dropWhile (fun c => c.isWhitespace) ≠ [] := by
      intro hR
      have hall := List.dropWhile_eq_nil_iff.mp hR
      obtain ⟨x, hx⟩ : ∃ x, rest.getLast? = some x := by
        cases hg : rest.getLast? with
        | none => exact absurd (List.getLast?_eq_none_iff.mp hg) hrne
        | some x => exact ⟨x, rfl⟩
      have hxmem : x ∈ rest := List.mem_of_mem_getLast? hx
      have := hall x hxmem
      rw [hrlast x hx] at this
      exact Bool.false_ne_true this
    refine ⟨hRne, ?_, ?_⟩
    · intro c t hct
      exact dropWhile_head_false hct
    · intro c hc
      exact hrlast c ((getLast?_of_suffix hRsuf hRne).trans hc)
  · rw [if_neg hcond]
    exact ⟨hne, hhead, hlast⟩

/-- The code's tokenizer agrees with the spec-reading tokenizer whenever the
trimmed subject is non-empty (shared by claims C7 and C10). -/
theorem extractCore_eq_specCore (subject : List Char) (h : trimChars subject ≠ []) :
    extractCore subject = extractModelSpecCore subject := by
  unfold extractCore extractModelSpecCore
  have hh : ∀ c t, trimChars subject = c :: t → c.isWhitespace = false :=
    fun c t he => trimChars_head he
  have hl : ∀ c, (trimChars subject).getLast? = some c → c.isWhitespace = false :=
    fun c hc => trimChars_last hc
  obtain ⟨h1, h2, h3⟩ := stripNoise_props h hh hl
  rw [jsSplitWs_eq_splitRuns h1 h2 h3]

theorem modelFromTokens_ne_nil {words : List (List Char)} {m : List Char}
    (hw : ∀ w ∈ words, w ≠ []) (h : modelFromTokens words = some m) : m ≠ [] := by
  unfold modelFromTokens at h
  rcases hc : words.filter (fun w => !(isYearTok w) && !(isEngineTok w)) with _ | ⟨w1, _ | ⟨w2, rest⟩⟩ <;>
    rw [hc] at h
  · exact absurd h (by simp)
  · have hm : m = w1 := by simpa using h.symm
    subst hm
    exact hw m (List.mem_of_mem_filter (hc ▸ List.mem_cons_self _ _))
  · have hw1 : w1 ≠ [] :=
      hw w1 (List.mem_of_mem_filter (hc ▸ List.mem_cons_self _ _))
    by_cases hs : isSpecTok w2 = true
    · simp only [hs, if_true] at h
      have hm : m = w1 := by simpa using h.symm
      subst hm
      exact hw1
    · simp only [hs, if_false] at h
      have hm : m = w1 ++ [' '] ++ w2 := by simpa using h.symm
      subst hm
      rcases w1 with _ | ⟨a, t⟩
      · simp
      · simp

/-! ### Claims C7 and C10 on `extractModelFromSubject` -/

/-- C7 counterexample: the claim states the heuristic "behaves as specified"
for *every* subject string, including "return absent if no tokens remain" — but
on a whitespace-only subject the code returns the empty string (JS
`"".split(/\s+/)` is `[""]` and the empty fragment survives the year/engine
filter) while the specified heuristic, with no tokens remaining, returns the
absent result. -/
theorem extractModel_spec_counterexample :
    extractModelFromSubject " " = some "" ∧ extractModelSpec " " = none := by
  constructor <;> decide

/-- C7 (amended): for every subject whose trimmed text is non-empty,
`extractModelFromSubject` behaves exactly as the specified heuristic
(strip one leading noise word, split on whitespace, drop year/engine tokens,
return the first two tokens joined — or the first alone when the second is
spec-like — and absent when no tokens remain).  Only the empty/whitespace-only
subject, where the code yields `""` instead of the absent value, is excluded. -/
theorem extractModel_refines_spec (s : String) (h : trimChars s.data ≠ []) :
    extractModelFromSubject s = extractModelSpec s := by
  unfold extractModelFromSubject extractModelSpec
  rw [extractCore_eq_specCore s.data h]

/-- Witness for `extractModel_refines_spec`, at the spec's own example:
`"Vendo Honda Civic 2015 4p automático"` yields `"Honda Civic"`. -/
theorem extractModel_refines_spec_witness :
    trimChars ("Vendo Honda Civic 2015 4p automático" : String).data ≠ [] ∧
    extractModelFromSubject "Vendo Honda Civic 2015 4p automático"
      = extractModelSpec "Vendo Honda Civic 2015 4p automático" ∧
    extractModelFromSubject "Vendo Honda Civic 2015 4p automático" = some "Honda Civic" :=
  ⟨by decide, extractModel_refines_spec _ (by decide), by decide⟩

/-! ## Listing parser: `parseAd` (claims C9, C10)

The endpoint's raw item is dynamic JSON.  Every field that `parseAd` may find
absent (or of a non-string shape) is an `Option`; accessing a string method on
an absent value is a JS `TypeError`, modelled by `Except.error`.  The
`location` object is flattened to its two optional string fields (optional
chaining makes an absent `location` equivalent to both fields absent). -/

structure OlxAdProperty where
  name : Option String
  label : Option String
  value : Option String
deriving DecidableEq, Repr

structure OlxAd where
  listId : Option Nat
  subject : Option String
  url : Option String
  price : Option String
  municipality : Option String
  neighbourhood : Option String
  properties : Option (List OlxAdProperty)
  thumbnail : Option String
  date : Option String
deriving DecidableEq, Repr

def OLX_BASE_URL : String := "https://www.olx.com.br"

/-- JS `String(ad.listId)`: a number prints in decimal, `undefined` prints as
`"undefined"`. -/
def jsStringOfListId (o : Option Nat) : String :=
  match o with
  | some n => toString n
  | none => "undefined"

/-- JS `str.startsWith(pre)` (modelled on the character lists). -/
def strStartsWith (s pre : String) : Bool :=
  prefixChars pre.data s.data

/-- The Page Fetcher's validity filter on one raw item
(`ads.filter(ad => ad.listId && ad.url)` in `fetchPage`): the listing id and
URL must be present and truthy (a `0` id and an empty URL are falsy). -/
def adPassesValidity (ad : OlxAd) : Bool :=
  (match ad.listId with
   | some n => n != 0
   | none => false) &&
  (match ad.url with
   | some u => !u.isEmpty
   | none => false)

/-- `fetchPage`'s per-item validity filter over the extracted result array. -/
def filterValidAds (ads : List OlxAd) : List OlxAd :=
  ads.filter adPassesValidity

/-- `ad.properties.find(p => p.label.toLowerCase().includes('modelo') ||
p.label.toLowerCase().includes('model'))`: scans in order, stops at the first
match, and throws if an entry without a string label is reached first. -/
def findModelProp : List OlxAdProperty → Except String (Option OlxAdProperty)
  | [] => .ok none
  | p :: rest =>
    match p.label with
    | none => .error "TypeError: p.label is not a string"
    | some lab =>
      if strIncludes (lowerStr lab) "modelo" || strIncludes (lowerStr lab) "model" then
        .ok (some p)
      else findModelProp rest

/-- The analogous `find` for the mileage property
(labels containing `quilômet`, `mileage` or `km`). -/
def findMileageProp : List OlxAdProperty → Except String (Option OlxAdProperty)
  | [] => .ok none
  | p :: rest =>
    match p.label with
    | none => .error "TypeError: p.label is not a string"
    | some lab =>
      if strIncludes (lowerStr lab) "quilômet" || strIncludes (lowerStr lab) "mileage"
          || strIncludes (lowerStr lab) "km" then
        .ok (some p)
      else findMileageProp rest

/-- Decimal value of a digit list (most significant first). -/
def digitsToNat (ds : List Char) : Nat :=
  ds.foldl (fun acc c => acc * 10 + (c.toNat - ('0').toNat)) 0

/-- `mileageProp.value.replace(/\D/g, '')` followed by `parseInt(clean, 10) || null`:
no digits parse to `NaN` (falsy) and a parsed `0` is falsy, both yielding
`null`. -/
def parseMileageValue (v : String) : Option Nat :=
  let digits := v.data.filter (fun c => c.isDigit)
  if digits.isEmpty then none
  else
    let n := digitsToNat digits
    if n = 0 then none else some n

/-- The model-extraction block of `parseAd`: the structured-property lookup
(which may throw on a label-less entry). -/
def modelFromProps (ad : OlxAd) : Except String (Option String) :=
  match ad.properties with
  | none => .ok none
  | some props =>
    match findModelProp props with
    | .error e => .error e
    | .ok none => .ok none
    | .ok (some p) => .ok p.value

/-- The full model field of `parseAd`: the property lookup, then
`if (!model && ad.subject) model = extractModelFromSubject(ad.subject)`. -/
def modelField (ad : OlxAd) : Except String (Option String) :=
  match modelFromProps ad with
  | .error e => .error e
  | .ok model₁ =>
    .ok (if !(jsTruthyStr model₁) && jsTruthyStr ad.subject then
          extractModelFromSubject (ad.subject.getD "")
        else model₁)

/-- The mileage block of `parseAd`: the property lookup (which may throw on a
label-less entry, or on a value-less matching entry via `.replace`). -/
def mileageField (ad : OlxAd) : Except String (Option Nat) :=
  match ad.properties with
  | none => .ok none
  | some props =>
    match findMileageProp props with
    | .error e => .error e
    | .ok none => .ok none
    | .ok (some p) =>
      match p.value with
      | none => .error "TypeError: mileageProp.value is not a string"
      | some v => .ok (parseMileageValue v)

/-- `parseAd(ad, searchId)`.  `new Date().toISOString()` is the `now`
parameter.  Evaluation order follows the source: model block, subject
fallback, mileage block, then the returned object literal (where `ad.url` is
dereferenced). -/
def parseAd (ad : OlxAd) (searchId : String) (now : String) : Except String Listing :=
  match modelField ad with
  | .error e => .error e
  | .ok model =>
    match mileageField ad with
    | .error e => .error e
    | .ok mileage =>
      match ad.url with
      | none => .error "TypeError: ad.url is not a string"
      | some url =>
        .ok {
          list_id := jsStringOfListId ad.listId,
          search_id := searchId,
          subject := jsOrNull ad.subject,
          price := jsOrNull ad.price,
          municipality := jsOrNull ad.municipality,
          neighbourhood := jsOrNull ad.neighbourhood,
          ad_url := if strStartsWith url "http" then url else OLX_BASE_URL ++ url,
          model := model,
          date_ts := jsOrNull ad.date,
          thumbnail_url := jsOrNull ad.thumbnail,
          mileage := mileage,
          collected_at := now }

/-! ### Claims C9 and C10 on `parseAd` -/

theorem findModelProp_ok {props : List OlxAdProperty}
    (h : ∀ p ∈ props, p.label ≠ none) : ∃ r, findModelProp props = .ok r := by
  induction props with
  | nil => exact ⟨none, rfl⟩
  | cons p rest ih =>
    have hp := h p (List.mem_cons_self _ _)
    cases hl : p.label with
    | none => exact absurd hl hp
    | some lab =>
      rw [show findModelProp (p :: rest)
          = (match p.label with
             | none => .error "TypeError: p.label is not a string"
             | some lab =>
               if strIncludes (lowerStr lab) "modelo" || strIncludes (lowerStr lab) "model" then
                 .ok (some p)
               else findModelProp rest) from rfl, hl]
      dsimp only
      by_cases hc : (strIncludes (lowerStr lab) "modelo" || strIncludes (lowerStr lab) "model") = true
      · rw [if_pos hc]; exact ⟨some p, rfl⟩
      · rw [if_neg hc]
        exact ih (fun q hq => h q (List.mem_cons_of_mem _ hq))

theorem findMileageProp_ok {props : List OlxAdProperty}
    (h : ∀ p ∈ props, p.label ≠ none) :
    ∃ r, findMileageProp props = .ok r ∧ ∀ p, r = some p → p ∈ props := by
  induction props with
  | nil => exact ⟨none, rfl, by simp⟩
  | cons p rest ih =>
    have hp := h p (List.mem_cons_self _ _)
    cases hl : p.label with
    | none => exact absurd hl hp
    | some lab =>
      rw [show findMileageProp (p :: rest)
          = (match p.label with
             | none => .error "TypeError: p.label is not a string"
             | some lab =>
               if strIncludes (lowerStr lab) "quilômet" || strIncludes (lowerStr lab) "mileage"
                   || strIncludes (lowerStr lab) "km" then
                 .ok (some p)
               else findMileageProp rest) from rfl, hl]
      dsimp only
      by_cases hc : (strIncludes (lowerStr lab) "quilômet" || strIncludes (lowerStr lab) "mileage"
          || strIncludes (lowerStr lab) "km") = true
      · rw [if_pos hc]
        exact ⟨some p, rfl, fun q hq => by
          simp only [Option.some.injEq] at hq
          rw [← hq]
          exact List.mem_cons_self _ _⟩
      · rw [if_neg hc]
        obtain ⟨r, hr, hmem⟩ := ih (fun q hq => h q (List.mem_cons_of_mem _ hq))
        exact ⟨r, hr, fun q hq => List.mem_cons_of_mem _ (hmem q hq)⟩

/-- An ad that passes the validity filter but carries a shapeless property
entry (no `label` field). -/
def badPropAd : OlxAd :=
  { listId := some 123, subject := some "Gol 2010", url := some "/anuncio/x",
    price := none, municipality := none, neighbourhood := none,
    properties := some [{ name := none, label := none, value := none }],
    thumbnail := none, date := none }

/-- C9 counterexample: the claim allows property entries of *any shape* in a
RawListing that passed the validity filter (which checks only the listing id
and URL), yet `parseAd` dereferences `p.label.toLowerCase()` on every scanned
entry, so an entry without a string label makes it throw — `parseAd` is not
total on such input. -/
theorem parseAd_total_counterexample :
    adPassesValidity badPropAd = true ∧
    parseAd badPropAd "s1" "t0" = .error "TypeError: p.label is not a string" := by
  exact ⟨by decide, rfl⟩

/-- C9 (amended): `parseAd` is total on every raw item that passed the Page
Fetcher's validity filter *and* whose property entries each carry a string
`label` and `value` (the shape the TypeScript `OlxAdProperty` type promises);
subject, price, location, thumbnail, date and the property list itself may
still each be absent. -/
theorem parseAd_total_amended (ad : OlxAd) (searchId now : String)
    (hvalid : adPassesValidity ad = true)
    (hprops : ∀ props, ad.properties = some props →
      ∀ p ∈ props, p.label ≠ none ∧ p.value ≠ none) :
    ∃ l, parseAd ad searchId now = .ok l := by
  have hurl : ∃ u, ad.url = some u := by
    unfold adPassesValidity at hvalid
    rcases hu : ad.url with _ | u
    · rw [hu] at hvalid
      simp at hvalid
    · exact ⟨u, rfl⟩
  obtain ⟨u, hu⟩ := hurl
  have hmodel : ∃ m, modelField ad = .ok m := by
    unfold modelField modelFromProps
    rcases hp : ad.properties with _ | props
    · exact ⟨_, rfl⟩
    · obtain ⟨r, hr⟩ := findModelProp_ok
        (fun p hmem => (hprops props hp p hmem).1)
      dsimp only
      rw [hr]
      rcases r with _ | p
      · exact ⟨_, rfl⟩
      · exact ⟨_, rfl⟩
  obtain ⟨m, hm⟩ := hmodel
  have hmil : ∃ k, mileageField ad = .ok k := by
    unfold mileageField
    rcases hp : ad.properties with _ | props
    · exact ⟨_, rfl⟩
    · obtain ⟨r, hr, hrmem⟩ := findMileageProp_ok
        (fun p hmem => (hprops props hp p hmem).1)
      dsimp only
      rw [hr]
      rcases r with _ | p
      · exact ⟨_, rfl⟩
      · have hpv := (hprops props hp p (hrmem p rfl)).2
        dsimp only
        rcases hv : p.value with _ | v
        · exact absurd hv hpv
        · exact ⟨_, rfl⟩
  obtain ⟨k, hk⟩ := hmil
  refine ⟨{ list_id := jsStringOfListId ad.listId, search_id := searchId,
            subject := jsOrNull ad.subject, price := jsOrNull ad.price,
            municipality := jsOrNull ad.municipality,
            neighbourhood := jsOrNull ad.neighbourhood,
            ad_url := if strStartsWith u "http" then u else OLX_BASE_URL ++ u,
            model := m, date_ts := jsOrNull ad.date,
            thumbnail_url := jsOrNull ad.thumbnail,
            mileage := k, collected_at := now }, ?_⟩
  unfold parseAd
  rw [hm, hk, hu]

/-- Well-shaped property entries for the C9 witness. -/
def goodProps : List OlxAdProperty :=
  [{ name := some "vehicle_model", label := some "Modelo", value := some "Civic" },
   { name := some "mileage", label := some "Quilometragem", value := some "98.000 km" }]

/-- A well-shaped ad exercising `parseAd_total_amended`: model and mileage
properties both present and string-valued. -/
def goodPropAd : OlxAd :=
  { listId := some 77, subject := some "Vendo Honda Civic 2015 4p automático",
    url := some "/anuncio/y",
    price := some "R$ 55.000", municipality := some "Porto Alegre", neighbourhood := none,
    properties := some goodProps,
    thumbnail := none, date := none }

/-- Witness for `parseAd_total_amended` at a concrete well-shaped ad. -/
theorem parseAd_total_amended_witness :
    adPassesValidity goodPropAd = true ∧
    ∃ l, parseAd goodPropAd "s1" "t0" = .ok l :=
  ⟨by decide, parseAd_total_amended goodPropAd "s1" "t0" (by decide)
    (by
      intro props hp p hmem
      have h0 : some goodProps = some props := hp
      have h1 : goodProps = props := by injection h0
      rw [← h1] at hmem
      fin_cases hmem <;> exact ⟨by decide, by decide⟩)⟩

/-- An ad that passes the validity filter and whose subject is whitespace-only. -/
def wsSubjectAd : OlxAd :=
  { listId := some 5, subject := some "   ", url := some "/a",
    price := none, municipality := none, neighbourhood := none,
    properties := none, thumbnail := none, date := none }

/-- C10 counterexample: `extractModelFromSubject` *can* return the empty
string — a whitespace-only subject trims to `""`, JS `"".split(/\s+/)` is
`[""]`, the empty fragment survives the year/engine filter, and the first
"token" `""` is returned.  Consequently `parseAd` (whose fallback fires
because a whitespace-only subject is truthy) produces a listing whose model is
the *empty* string, neither null nor non-empty. -/
theorem extractModel_empty_string_counterexample :
    extractModelFromSubject "   " = some "" ∧
    parseAd wsSubjectAd "s1" "t0" = .ok
      { list_id := "5", search_id := "s1", subject := some "   ", price := none,
        municipality := none, neighbourhood := none,
        ad_url := "https://www.olx.com.br/a", model := some "", date_ts := none,
        thumbnail_url := none, mileage := none, collected_at := "t0" } :=
  ⟨by decide, rfl⟩

/-- C10 (amended): `extractModelFromSubject` never returns the empty string
*except* on subjects that trim to the empty string (empty or whitespace-only),
where it returns exactly the empty string; on every other subject the result
is null or non-empty. -/
theorem extractModel_empty_string_amended (s : String) :
    (trimChars s.data ≠ [] → ∀ m, extractModelFromSubject s = some m → m ≠ "") ∧
    (trimChars s.data = [] → extractModelFromSubject s = some "") := by
  constructor
  · intro htrim m hm
    unfold extractModelFromSubject at hm
    rw [extractCore_eq_specCore s.data htrim] at hm
    unfold extractModelSpecCore at hm
    rcases hc : modelFromTokens (splitRuns (stripNoiseChars (trimChars s.data))) with _ | w
    · rw [hc] at hm
      simp at hm
    · rw [hc] at hm
      simp only [Option.map_some', Option.some.injEq] at hm
      have hwne : w ≠ [] :=
        modelFromTokens_ne_nil (fun w hw => splitRuns_token_ne_nil hw) hc
      intro hme
      apply hwne
      have hdata := congrArg String.data (hm.trans hme)
      exact hdata
  · intro htrim
    have hcore : extractCore s.data = some [] := by
      unfold extractCore
      rw [htrim]
      decide
    unfold extractModelFromSubject
    rw [hcore]
    rfl

/-- Witness for `extractModel_empty_string_amended`: at `"Fiat Uno"` the first
conjunct applies with a non-empty trimmed subject, and at `" "` the second
conjunct produces the empty-string result. -/
theorem extractModel_empty_string_amended_witness :
    extractModelFromSubject "Fiat Uno" = some "Fiat Uno" ∧
    ("Fiat Uno" : String) ≠ "" ∧
    extractModelFromSubject " " = some "" :=
  ⟨by decide,
   (extractModel_empty_string_amended "Fiat Uno").1 (by decide) "Fiat Uno" (by decide),
   (extractModel_empty_string_amended " ").2 (by decide)⟩

/-! ## Seen-set maintenance: `addSeenIds` (claims C2, C3)

The per-search `seen_ids` table is a list of rows in insertion order (the
`id` AUTOINCREMENT primary key is the position).  `datetime('now')` is a
natural-number timestamp supplied by the caller; along a real run timestamps
are nondecreasing in insertion order, which the relevant theorems take as a
hypothesis.

```ts
export async function addSeenIds(env, searchId, newIds) {
  if (newIds.length === 0) return;
  //  INSERT OR IGNORE INTO seen_ids (search_id, list_id) VALUES (?, ?)  (batched)
  //  DELETE FROM seen_ids WHERE search_id = ? AND id NOT IN (
  //    SELECT id FROM seen_ids WHERE search_id = ?
  //    ORDER BY first_seen_at DESC LIMIT 2000)
}
```
The `DELETE` keeps the 2000 rows with the most recent `first_seen_at`;
`enforceCap` implements it by repeatedly removing a row with minimal
`first_seen_at` (first such row on ties) until at most 2000 remain. -/

structure SeenRow where
  list_id : String
  first_seen_at : Nat
deriving DecidableEq, Repr

/-- `SELECT list_id FROM seen_ids WHERE search_id = ?` (`getSeenIds`). -/
def seenListIds (st : List SeenRow) : List String :=
  st.map (fun r => r.list_id)

/-- `INSERT OR IGNORE` of a single `(search_id, list_id)` row: a no-op when
the id is already present (the `UNIQUE(search_id, list_id)` constraint),
otherwise appends a row stamped `t`. -/
def insertSeenId (st : List SeenRow) (id : String) (t : Nat) : List SeenRow :=
  if (seenListIds st).contains id then st else st ++ [⟨id, t⟩]

/-- The batched `INSERT OR IGNORE` over all given ids. -/
def insertSeenIds (st : List SeenRow) (ids : List String) (t : Nat) : List SeenRow :=
  ids.foldl (fun s i => insertSeenId s i t) st

def SEEN_IDS_CAP : Nat := 2000

/-- Remove the first row whose `first_seen_at` is minimal (one eviction). -/
def dropOldest : List SeenRow → List SeenRow
  | [] => []
  | r :: rs =>
    if rs.all (fun s => decide (r.first_seen_at ≤ s.first_seen_at)) then rs
    else r :: dropOldest rs

theorem dropOldest_length : ∀ {st : List SeenRow}, st ≠ [] →
    (dropOldest st).length + 1 = st.length := by
  intro st
  induction st with
  | nil => intro h; exact absurd rfl h
  | cons r rs ih =>
    intro _
    rw [show dropOldest (r :: rs)
        = (if rs.all (fun s => decide (r.first_seen_at ≤ s.first_seen_at)) then rs
           else r :: dropOldest rs) from rfl]
    by_cases hc : rs.all (fun s => decide (r.first_seen_at ≤ s.first_seen_at)) = true
    · rw [if_pos hc]
      simp
    · rw [if_neg hc]
      cases rs with
      | nil => simp at hc
      | cons b bs =>
        have hlen := ih (by simp)
        simp only [List.length_cons] at *
        omega

theorem dropOldest_sublist : ∀ (st : List SeenRow), (dropOldest st).Sublist st := by
  intro st
  induction st with
  | nil => exact List.Sublist.refl _
  | cons r rs ih =>
    rw [show dropOldest (r :: rs)
        = (if rs.all (fun s => decide (r.first_seen_at ≤ s.first_seen_at)) then rs
           else r :: dropOldest rs) from rfl]
    by_cases hc : rs.all (fun s => decide (r.first_seen_at ≤ s.first_seen_at)) = true
    · rw [if_pos hc]
      exact List.sublist_cons_self _ _
    · rw [if_neg hc]
      exact List.Sublist.cons₂ _ ih

/-- The cap-enforcing `DELETE` (fuel-based recursion; `fuel = st.length` always
suffices since each eviction removes one row): evict minimal-`first_seen_at`
rows until at most `SEEN_IDS_CAP` remain (equivalently, keep the 2000 rows with
the most recent first-seen time). -/
def enforceCapFuel : Nat → List SeenRow → List SeenRow
  | 0, st => st
  | Nat.succ n, st =>
    if st.length ≤ SEEN_IDS_CAP then st else enforceCapFuel n (dropOldest st)

def enforceCap (st : List SeenRow) : List SeenRow :=
  enforceCapFuel st.length st

/-- `addSeenIds`: early return on an empty id list, else batch-insert and
enforce the cap. -/
def addSeenIds (st : List SeenRow) (newIds : List String) (t : Nat) : List SeenRow :=
  if newIds.isEmpty then st else enforceCap (insertSeenIds st newIds t)

/-- The table rows are in nondecreasing `first_seen_at` order (adjacent
check). -/
def sortedByFirstSeen : List SeenRow → Bool
  | [] => true
  | [_] => true
  | a :: b :: rest =>
    decide (a.first_seen_at ≤ b.first_seen_at) && sortedByFirstSeen (b :: rest)

theorem sorted_tail {r : SeenRow} {rs : List SeenRow}
    (h : sortedByFirstSeen (r :: rs) = true) : sortedByFirstSeen rs = true := by
  cases rs with
  | nil => rfl
  | cons b bs =>
    rw [show sortedByFirstSeen (r :: b :: bs)
        = (decide (r.first_seen_at ≤ b.first_seen_at) && sortedByFirstSeen (b :: bs)) from rfl] at h
    exact ((Bool.and_eq_true _ _).mp h).2

theorem sorted_head_le {r : SeenRow} {rs : List SeenRow}
    (h : sortedByFirstSeen (r :: rs) = true) :
    ∀ x ∈ rs, r.first_seen_at ≤ x.first_seen_at := by
  induction rs generalizing r with
  | nil => intro x hx; simp at hx
  | cons b bs ih =>
    intro x hx
    rw [show sortedByFirstSeen (r :: b :: bs)
        = (decide (r.first_seen_at ≤ b.first_seen_at) && sortedByFirstSeen (b :: bs)) from rfl] at h
    obtain ⟨h1, h2⟩ := (Bool.and_eq_true _ _).mp h
    have hrb : r.first_seen_at ≤ b.first_seen_at := of_decide_eq_true h1
    rcases List.mem_cons.mp hx with rfl | hx
    · exact hrb
    · exact hrb.trans (ih h2 x hx)

theorem dropOldest_sorted {r : SeenRow} {rs : List SeenRow}
    (h : sortedByFirstSeen (r :: rs) = true) : dropOldest (r :: rs) = rs := by
  rw [show dropOldest (r :: rs)
      = (if rs.all (fun s => decide (r.first_seen_at ≤ s.first_seen_at)) then rs
         else r :: dropOldest rs) from rfl]
  rw [if_pos]
  exact List.all_eq_true.mpr (fun s hs => decide_eq_true (sorted_head_le h s hs))

theorem enforceCapFuel_eq_of_le {st : List SeenRow} (h : st.length ≤ SEEN_IDS_CAP) :
    ∀ n, enforceCapFuel n st = st := by
  intro n
  cases n with
  | zero => rfl
  | succ n =>
    rw [show enforceCapFuel (n + 1) st
        = (if st.length ≤ SEEN_IDS_CAP then st else enforceCapFuel n (dropOldest st)) from rfl]
    exact if_pos h

theorem enforceCap_eq_of_le {st : List SeenRow} (h : st.length ≤ SEEN_IDS_CAP) :
    enforceCap st = st :=
  enforceCapFuel_eq_of_le h st.length

theorem enforceCapFuel_length : ∀ (n : Nat) (st : List SeenRow),
    st.length - SEEN_IDS_CAP ≤ n →
    (enforceCapFuel n st).length = min st.length SEEN_IDS_CAP := by
  intro n
  induction n with
  | zero =>
    intro st hlen
    rw [show enforceCapFuel 0 st = st from rfl]
    omega
  | succ n ih =>
    intro st hlen
    rw [show enforceCapFuel (n + 1) st
        = (if st.length ≤ SEEN_IDS_CAP then st else enforceCapFuel n (dropOldest st)) from rfl]
    by_cases hc : st.length ≤ SEEN_IDS_CAP
    · rw [if_pos hc]; omega
    · rw [if_neg hc]
      have hne : st ≠ [] := by
        intro he
        rw [he] at hc
        simp [SEEN_IDS_CAP] at hc
      have hdl := dropOldest_length hne
      have hrec := ih (dropOldest st) (by omega)
      omega

theorem enforceCap_length (st : List SeenRow) :
    (enforceCap st).length = min st.length SEEN_IDS_CAP :=
  enforceCapFuel_length st.length st (by omega)

theorem enforceCapFuel_sublist : ∀ (n : Nat) (st : List SeenRow),
    (enforceCapFuel n st).Sublist st := by
  intro n
  induction n with
  | zero => intro st; exact List.Sublist.refl _
  | succ n ih =>
    intro st
    rw [show enforceCapFuel (n + 1) st
        = (if st.length ≤ SEEN_IDS_CAP then st else enforceCapFuel n (dropOldest st)) from rfl]
    by_cases hc : st.length ≤ SEEN_IDS_CAP
    · rw [if_pos hc]
    · rw [if_neg hc]
      exact (ih (dropOldest st)).trans (dropOldest_sublist st)

theorem enforceCap_sublist (st : List SeenRow) : (enforceCap st).Sublist st :=
  enforceCapFuel_sublist st.length st

theorem enforceCapFuel_sorted_drop : ∀ (n : Nat) (st : List SeenRow),
    st.length - SEEN_IDS_CAP ≤ n → sortedByFirstSeen st = true →
    enforceCapFuel n st = st.drop (st.length - SEEN_IDS_CAP) := by
  intro n
  induction n with
  | zero =>
    intro st hlen _
    have hz : st.length - SEEN_IDS_CAP = 0 := Nat.le_zero.mp hlen
    rw [show enforceCapFuel 0 st = st from rfl, hz, List.drop_zero]
  | succ n ih =>
    intro st hlen hsort
    rw [show enforceCapFuel (n + 1) st
        = (if st.length ≤ SEEN_IDS_CAP then st else enforceCapFuel n (dropOldest st)) from rfl]
    by_cases hc : st.length ≤ SEEN_IDS_CAP
    · rw [if_pos hc, Nat.sub_eq_zero_of_le hc, List.drop_zero]
    · rw [if_neg hc]
      cases st with
      | nil => simp [SEEN_IDS_CAP] at hc
      | cons r rs =>
        rw [dropOldest_sorted hsort]
        have hsort2 : sortedByFirstSeen rs = true := sorted_tail hsort
        have hlc : (r :: rs).length = rs.length + 1 := rfl
        have hle : rs.length - SEEN_IDS_CAP ≤ n := by omega
        rw [ih rs hle hsort2]
        have hstep : (r :: rs).length - SEEN_IDS_CAP = (rs.length - SEEN_IDS_CAP) + 1 := by
          omega
        rw [hstep, List.drop_succ_cons]

theorem enforceCap_sorted_drop (st : List SeenRow) (hsort : sortedByFirstSeen st = true) :
    enforceCap st = st.drop (st.length - SEEN_IDS_CAP) :=
  enforceCapFuel_sorted_drop st.length st (by omega) hsort

/-! ### Lemmas on `insertSeenIds` -/

theorem insertSeenIds_shape (t : Nat) : ∀ (ids : List String) (st : List SeenRow),
    ∃ fr : List String, insertSeenIds st ids t = st ++ fr.map (fun i => ⟨i, t⟩) := by
  intro ids
  induction ids with
  | nil => intro st; exact ⟨[], by simp [insertSeenIds]⟩
  | cons i rest ih =>
    intro st
    rw [show insertSeenIds st (i :: rest) t = insertSeenIds (insertSeenId st i t) rest t from rfl]
    unfold insertSeenId
    by_cases hc : (seenListIds st).contains i = true
    · rw [if_pos hc]
      exact ih st
    · rw [if_neg hc]
      obtain ⟨fr, hfr⟩ := ih (st ++ [⟨i, t⟩])
      exact ⟨i :: fr, by simpa [List.append_assoc] using hfr⟩

theorem seenListIds_append (st₁ st₂ : List SeenRow) :
    seenListIds (st₁ ++ st₂) = seenListIds st₁ ++ seenListIds st₂ :=
  List.map_append _ _ _

theorem mem_insertSeenIds {id : String} {st : List SeenRow} (ids : List String) (t : Nat)
    (h : id ∈ seenListIds st) : id ∈ seenListIds (insertSeenIds st ids t) := by
  obtain ⟨fr, hfr⟩ := insertSeenIds_shape t ids st
  rw [hfr, seenListIds_append]
  exact List.mem_append_left _ h

theorem insertSeenIds_nodup (t : Nat) : ∀ (ids : List String) (st : List SeenRow),
    (seenListIds st).Nodup → (seenListIds (insertSeenIds st ids t)).Nodup := by
  intro ids
  induction ids with
  | nil => intro st h; exact h
  | cons i rest ih =>
    intro st h
    rw [show insertSeenIds st (i :: rest) t = insertSeenIds (insertSeenId st i t) rest t from rfl]
    apply ih
    unfold insertSeenId
    by_cases hc : (seenListIds st).contains i = true
    · rw [if_pos hc]
      exact h
    · rw [if_neg hc]
      rw [seenListIds_append]
      have hni : i ∉ seenListIds st := fun hmem => hc (List.elem_iff.mpr hmem)
      rw [show seenListIds [⟨i, t⟩] = [i] from rfl]
      rw [List.nodup_append]
      refine ⟨h, List.nodup_singleton i, ?_⟩
      intro x hx hx2
      simp only [List.mem_singleton] at hx2
      subst hx2
      exact hni hx

theorem insertSeenIds_bound {st : List SeenRow} {t : Nat} (ids : List String)
    (hmono : ∀ r ∈ st, r.first_seen_at ≤ t) :
    ∀ r ∈ insertSeenIds st ids t, r.first_seen_at ≤ t := by
  obtain ⟨fr, hfr⟩ := insertSeenIds_shape t ids st
  rw [hfr]
  intro r hr
  rcases List.mem_append.mp hr with hr | hr
  · exact hmono r hr
  · obtain ⟨i, _, rfl⟩ := List.mem_map.mp hr
    exact le_rfl

theorem sorted_const_map (t : Nat) : ∀ (ids : List String),
    sortedByFirstSeen (ids.map (fun i => (⟨i, t⟩ : SeenRow))) = true := by
  intro ids
  induction ids with
  | nil => rfl
  | cons i rest ih =>
    cases rest with
    | nil => rfl
    | cons j rest2 =>
      rw [show (List.map (fun i => (⟨i, t⟩ : SeenRow)) (i :: j :: rest2))
          = ⟨i, t⟩ :: ⟨j, t⟩ :: List.map (fun i => (⟨i, t⟩ : SeenRow)) rest2 from rfl]
      rw [show sortedByFirstSeen (⟨i, t⟩ :: ⟨j, t⟩ :: List.map (fun i => (⟨i, t⟩ : SeenRow)) rest2)
          = (decide ((⟨i, t⟩ : SeenRow).first_seen_at ≤ (⟨j, t⟩ : SeenRow).first_seen_at)
             && sortedByFirstSeen (⟨j, t⟩ :: List.map (fun i => (⟨i, t⟩ : SeenRow)) rest2)) from rfl]
      rw [show (List.map (fun i => (⟨i, t⟩ : SeenRow)) (j :: rest2))
          = ⟨j, t⟩ :: List.map (fun i => (⟨i, t⟩ : SeenRow)) rest2 from rfl] at ih
      rw [ih]
      simp

theorem sorted_append {xs ys : List SeenRow} (hxs : sortedByFirstSeen xs = true)
    (hys : sortedByFirstSeen ys = true)
    (hle : ∀ x ∈ xs, ∀ y ∈ ys, x.first_seen_at ≤ y.first_seen_at) :
    sortedByFirstSeen (xs ++ ys) = true := by
  induction xs with
  | nil => simpa using hys
  | cons x xs ih =>
    cases xs with
    | nil =>
      cases ys with
      | nil => rfl
      | cons y ys2 =>
        rw [show ([x] ++ y :: ys2) = x :: y :: ys2 from rfl]
        rw [show sortedByFirstSeen (x :: y :: ys2)
            = (decide (x.first_seen_at ≤ y.first_seen_at) && sortedByFirstSeen (y :: ys2)) from rfl]
        rw [hys]
        simp only [Bool.and_true]
        exact decide_eq_true (hle x (by simp) y (by simp))
    | cons x2 xs2 =>
      have hx12 : decide (x.first_seen_at ≤ x2.first_seen_at) = true := by
        rw [show sortedByFirstSeen (x :: x2 :: xs2)
            = (decide (x.first_seen_at ≤ x2.first_seen_at) && sortedByFirstSeen (x2 :: xs2)) from rfl] at hxs
        exact ((Bool.and_eq_true _ _).mp hxs).1
      have htl : sortedByFirstSeen ((x2 :: xs2) ++ ys) = true :=
        ih (sorted_tail hxs) (fun a ha y hy => hle a (List.mem_cons_of_mem _ ha) y hy)
      rw [show ((x :: x2 :: xs2) ++ ys) = x :: x2 :: (xs2 ++ ys) from rfl]
      rw [show sortedByFirstSeen (x :: x2 :: (xs2 ++ ys))
          = (decide (x.first_seen_at ≤ x2.first_seen_at)
             && sortedByFirstSeen (x2 :: (xs2 ++ ys))) from rfl]
      rw [show (x2 :: (xs2 ++ ys)) = (x2 :: xs2) ++ ys from rfl, htl, hx12]
      rfl

theorem insertSeenIds_sorted {st : List SeenRow} {t : Nat} (ids : List String)
    (hsort : sortedByFirstSeen st = true)
    (hmono : ∀ r ∈ st, r.first_seen_at ≤ t) :
    sortedByFirstSeen (insertSeenIds st ids t) = true := by
  obtain ⟨fr, hfr⟩ := insertSeenIds_shape t ids st
  rw [hfr]
  apply sorted_append hsort (sorted_const_map t fr)
  intro x hx y hy
  obtain ⟨i, _, rfl⟩ := List.mem_map.mp hy
  exact hmono x hx

theorem sorted_take_drop_le : ∀ (l : List SeenRow) (k : Nat),
    sortedByFirstSeen l = true →
    ∀ x ∈ l.take k, ∀ y ∈ l.drop k, x.first_seen_at ≤ y.first_seen_at := by
  intro l
  induction l with
  | nil => intro k _ x hx; simp at hx
  | cons r rs ih =>
    intro k hsort x hx y hy
    cases k with
    | zero => simp at hx
    | succ k =>
      rw [List.take_succ_cons] at hx
      rw [List.drop_succ_cons] at hy
      rcases List.mem_cons.mp hx with rfl | hx
      · exact sorted_head_le hsort y (List.mem_of_mem_drop hy)
      · exact ih k (sorted_tail hsort) x hx y hy

/-- C2: over any reachable per-search table state (distinct ids, rows in
nondecreasing first-seen order, within the cap) and any `addSeenIds` call at a
timestamp `t` not earlier than the existing rows: re-inserting an
already-present id is a no-op (conjunct 1); the state keeps at most one row
per listing id (conjunct 2); the per-search row count stays at most 2000
(conjunct 3); and whenever the insert pushes the table above 2000 rows,
exactly the 2000 rows with the most recent first-seen time are retained and
every deleted row is oldest-by-first-seen relative to every retained row
(conjunct 4). -/
theorem addSeenIds_spec (st : List SeenRow) (ids : List String) (t : Nat)
    (hnd : (seenListIds st).Nodup)
    (hsort : sortedByFirstSeen st = true)
    (hmono : ∀ r ∈ st, r.first_seen_at ≤ t)
    (hcap : st.length ≤ SEEN_IDS_CAP) :
    (∀ id, id ∈ seenListIds st → insertSeenId st id t = st) ∧
    (seenListIds (addSeenIds st ids t)).Nodup ∧
    (addSeenIds st ids t).length ≤ SEEN_IDS_CAP ∧
    (SEEN_IDS_CAP < (insertSeenIds st ids t).length →
      addSeenIds st ids t
          = (insertSeenIds st ids t).drop ((insertSeenIds st ids t).length - SEEN_IDS_CAP) ∧
      (addSeenIds st ids t).length = SEEN_IDS_CAP ∧
      ∀ r ∈ insertSeenIds st ids t, r ∉ addSeenIds st ids t →
        ∀ s ∈ addSeenIds st ids t, r.first_seen_at ≤ s.first_seen_at) := by
  have hins_sorted : sortedByFirstSeen (insertSeenIds st ids t) = true :=
    insertSeenIds_sorted ids hsort hmono
  refine ⟨?_, ?_, ?_, ?_⟩
  · intro id hmem
    unfold insertSeenId
    rw [if_pos (List.elem_iff.mpr hmem)]
  · unfold addSeenIds
    by_cases he : ids.isEmpty = true
    · rw [if_pos he]
      exact hnd
    · rw [if_neg he]
      have hsub : (List.map (fun r => r.list_id) (enforceCap (insertSeenIds st ids t))).Sublist
          (List.map (fun r => r.list_id) (insertSeenIds st ids t)) :=
        (enforceCap_sublist (insertSeenIds st ids t)).map (fun r => r.list_id)
      exact List.Nodup.sublist hsub (insertSeenIds_nodup t ids st hnd)
  · unfold addSeenIds
    by_cases he : ids.isEmpty = true
    · rw [if_pos he]
      exact hcap
    · rw [if_neg he]
      have := enforceCap_length (insertSeenIds st ids t)
      omega
  · intro hover
    have hne : ids.isEmpty = false := by
      rcases hids : ids with _ | ⟨i, rest⟩
      · rw [hids] at hover
        rw [show insertSeenIds st [] t = st from rfl] at hover
        omega
      · rfl
    have haddeq : addSeenIds st ids t = enforceCap (insertSeenIds st ids t) := by
      unfold addSeenIds
      rw [hne]
      rfl
    have hdropeq : addSeenIds st ids t
        = (insertSeenIds st ids t).drop ((insertSeenIds st ids t).length - SEEN_IDS_CAP) := by
      rw [haddeq, enforceCap_sorted_drop _ hins_sorted]
    refine ⟨hdropeq, ?_, ?_⟩
    · rw [haddeq]
      have := enforceCap_length (insertSeenIds st ids t)
      omega
    · intro r hr hnotin s hs
      rw [hdropeq] at hnotin hs
      have hrsplit : r ∈ (insertSeenIds st ids t).take
            ((insertSeenIds st ids t).length - SEEN_IDS_CAP)
          ∨ r ∈ (insertSeenIds st ids t).drop
            ((insertSeenIds st ids t).length - SEEN_IDS_CAP) := by
        rw [← List.mem_append, List.take_append_drop]
        exact hr
      rcases hrsplit with hrt | hrd
      · exact sorted_take_drop_le _ _ hins_sorted r hrt s hs
      · exact absurd hrd hnotin

/-- A tiny reachable table state for the C2 witness. -/
def wSt : List SeenRow := [⟨"a", 0⟩, ⟨"b", 1⟩]

/-- Witness for `addSeenIds_spec` at a concrete state and call (re-inserting
`"b"` and adding `"c"`). -/
theorem addSeenIds_spec_witness :
    (seenListIds wSt).Nodup ∧ sortedByFirstSeen wSt = true ∧ wSt.length ≤ SEEN_IDS_CAP ∧
    (addSeenIds wSt ["b", "c"] 2).length ≤ SEEN_IDS_CAP :=
  ⟨by decide, by decide, by decide,
   (addSeenIds_spec wSt ["b", "c"] 2 (by decide) (by decide) (by decide)
     (by decide)).2.2.1⟩

/-! ### Claim C3: a recorded id and subsequent diffs

`scanSearch` (diff-engine part of the source) per scan: fetch `listings`,
read the seen-set, `computeDiff` against it, and only afterwards record *all*
observed ids (`addSeenIds(env, search.id, listings.map(l => l.list_id))`). -/

/-- One scan's diff-and-record step against the per-search seen-set state:
the diff uses the seen-set as fetched *before* recording, and recording
covers every observed listing id (not only the new ones), exactly as in
`scanSearch`. -/
def scanStep (st : List SeenRow) (listings : List Listing) (t : Nat) :
    List Listing × List SeenRow :=
  (computeDiff listings (seenListIds st),
   addSeenIds st (listings.map (fun l => l.list_id)) t)

/-- The new-listing outputs of a sequence of scans (each scan = observed
listings plus its timestamp). -/
def runDiffs (st : List SeenRow) : List (List Listing × Nat) → List (List Listing)
  | [] => []
  | (L, t) :: rest => (scanStep st L t).1 :: runDiffs (scanStep st L t).2 rest

/-- Along the scan sequence, every insert stays within the 2000-row cap
(i.e. the cap never evicts anything). -/
def capOk (st : List SeenRow) : List (List Listing × Nat) → Bool
  | [] => true
  | (L, t) :: rest =>
    decide ((insertSeenIds st (L.map (fun l => l.list_id)) t).length ≤ SEEN_IDS_CAP)
      && capOk (addSeenIds st (L.map (fun l => l.list_id)) t) rest

theorem computeDiff_not_mem {id : String} {L : List Listing} {seen : List String}
    (h : id ∈ seen) : ∀ l ∈ computeDiff L seen, l.list_id ≠ id := by
  intro l hl he
  have hf := (List.mem_filter.mp hl).2
  rw [he] at hf
  have hc : seen.contains id = true := List.elem_iff.mpr h
  rw [hc] at hf
  simp at hf

theorem mem_addSeenIds_of_le {id : String} {st : List SeenRow} {ids : List String} {t : Nat}
    (h : id ∈ seenListIds st)
    (hlen : (insertSeenIds st ids t).length ≤ SEEN_IDS_CAP) :
    id ∈ seenListIds (addSeenIds st ids t) := by
  unfold addSeenIds
  by_cases he : ids.isEmpty = true
  · rw [if_pos he]
    exact h
  · rw [if_neg he, enforceCap_eq_of_le hlen]
    exact mem_insertSeenIds ids t h

/-- C3 (amended): a listing id recorded in the per-search seen-set never again
appears in the new-listing output of any subsequent scan's diff — *provided
the seen-set stays within its 2000-row cap along those scans* (so the id is
never evicted).  Each scan records all observed ids before the next scan
diffs, exactly as in `scanSearch`. -/
theorem recordSeen_no_realert (id : String) :
    ∀ (scans : List (List Listing × Nat)) (st : List SeenRow),
    capOk st scans = true → id ∈ seenListIds st →
    ∀ out ∈ runDiffs st scans, ∀ l ∈ out, l.list_id ≠ id := by
  intro scans
  induction scans with
  | nil =>
    intro st _ _ out hout
    simp [runDiffs] at hout
  | cons sc rest ih =>
    intro st hcap hid out hout
    obtain ⟨L, t⟩ := sc
    rw [show runDiffs st ((L, t) :: rest)
        = (scanStep st L t).1 :: runDiffs (scanStep st L t).2 rest from rfl] at hout
    rw [show capOk st ((L, t) :: rest)
        = (decide ((insertSeenIds st (L.map (fun l => l.list_id)) t).length ≤ SEEN_IDS_CAP)
           && capOk (addSeenIds st (L.map (fun l => l.list_id)) t) rest) from rfl] at hcap
    obtain ⟨h1, h2⟩ := (Bool.and_eq_true _ _).mp hcap
    have hlen := of_decide_eq_true h1
    rcases List.mem_cons.mp hout with rfl | hout
    · exact computeDiff_not_mem hid
    · exact ih _ h2 (mem_addSeenIds_of_le hid hlen) out hout

/-- Seen-set state and scan for the C3 witness: `"x"` is recorded; the next
scan observes `"x"` again together with a fresh `"y"`. -/
def wSt3 : List SeenRow := [⟨"x", 0⟩]

def wScans : List (List Listing × Nat) :=
  [([sampleListing "x" none, sampleListing "y" none], 1)]

/-- Witness for `recordSeen_no_realert`: in the follow-up scan the re-observed
`"x"` does not re-alert (only `"y"` can). -/
theorem recordSeen_no_realert_witness :
    capOk wSt3 wScans = true ∧ "x" ∈ seenListIds wSt3 ∧
    (sampleListing "y" none).list_id ≠ "x" :=
  ⟨by decide, by decide,
   recordSeen_no_realert "x" wScans wSt3 (by decide) (by decide)
     (computeDiff [sampleListing "x" none, sampleListing "y" none] (seenListIds wSt3))
     (by decide) (sampleListing "y" none) (by decide)⟩

/-! ### Claim C3 counterexample: cap eviction resurrects a recorded id

`INSERT OR IGNORE` does not refresh `first_seen_at` of a re-observed id, so an
id recorded early keeps its old first-seen stamp; once 2000 fresh ids arrive
in one later scan, the cap eviction removes exactly that oldest row — even
though the id was re-observed in the very same scan — and the id re-appears in
the next scan's diff. -/

/-- 2000 pairwise-distinct listing ids, all different from `"x"`. -/
def freshId (n : Nat) : String :=
  String.mk (List.replicate (n + 1) 'a')

theorem freshId_injective : Function.Injective freshId := by
  intro m n h
  have hd : List.replicate (m + 1) 'a' = List.replicate (n + 1) 'a' :=
    congrArg String.data h
  have hlen := congrArg List.length hd
  simp only [List.length_replicate] at hlen
  omega

theorem freshId_ne_x (n : Nat) : freshId n ≠ "x" := by
  intro h
  have hd : List.replicate (n + 1) 'a' = ['x'] := congrArg String.data h
  have hlen := congrArg List.length hd
  simp only [List.length_replicate, List.length_cons, List.length_nil] at hlen
  have hn : n = 0 := by omega
  subst hn
  exact absurd hd (by decide)

def freshIds : List String := (List.range SEEN_IDS_CAP).map freshId

theorem freshIds_nodup : freshIds.Nodup :=
  List.Nodup.map freshId_injective (List.nodup_range _)

theorem freshIds_not_x : ∀ i ∈ freshIds, i ≠ "x" := by
  intro i hi
  obtain ⟨n, _, rfl⟩ := List.mem_map.mp hi
  exact freshId_ne_x n

theorem freshIds_length : freshIds.length = SEEN_IDS_CAP := by
  unfold freshIds
  rw [List.length_map, List.length_range]

def xListing : Listing := sampleListing "x" none

def freshListings : List Listing := freshIds.map (fun i => sampleListing i none)

theorem freshListings_ids : freshListings.map (fun l => l.list_id) = freshIds := by
  unfold freshListings
  rw [List.map_map]
  have h1 : List.map ((fun l : Listing => l.list_id) ∘ (fun i => sampleListing i none)) freshIds
      = List.map id freshIds :=
    List.map_congr_left (fun i _ => rfl)
  rw [h1, List.map_id]

/-- Unfolding equation of the batched insert (stated on variables so that it
never forces evaluation of a large concrete id list). -/
theorem insertSeenIds_cons (st : List SeenRow) (i : String) (rest : List String) (t : Nat) :
    insertSeenIds st (i :: rest) t = insertSeenIds (insertSeenId st i t) rest t := rfl

/-- Unfolding equation of `runDiffs` on a cons cell. -/
theorem runDiffs_cons (st : List SeenRow) (L : List Listing) (t : Nat)
    (rest : List (List Listing × Nat)) :
    runDiffs st ((L, t) :: rest)
      = (scanStep st L t).1 :: runDiffs (scanStep st L t).2 rest := rfl

/-- Batched `INSERT OR IGNORE` of pairwise-distinct, all-fresh ids appends one
row per id. -/
theorem insertSeenIds_fresh (t : Nat) : ∀ (ids : List String) (st : List SeenRow),
    (∀ i ∈ ids, i ∉ seenListIds st) → ids.Nodup →
    insertSeenIds st ids t = st ++ ids.map (fun i => ⟨i, t⟩) := by
  intro ids
  induction ids with
  | nil => intro st _ _; simp [insertSeenIds]
  | cons i rest ih =>
    intro st hfresh hnd
    rw [show insertSeenIds st (i :: rest) t = insertSeenIds (insertSeenId st i t) rest t from rfl]
    have hci : ¬ ((seenListIds st).contains i = true) := by
      intro hc
      exact hfresh i (List.mem_cons_self _ _) (List.elem_iff.mp hc)
    unfold insertSeenId
    rw [if_neg hci]
    have hfresh2 : ∀ j ∈ rest, j ∉ seenListIds (st ++ [⟨i, t⟩]) := by
      intro j hj hjmem
      rw [seenListIds_append] at hjmem
      rcases List.mem_append.mp hjmem with hjm | hjm
      · exact hfresh j (List.mem_cons_of_mem _ hj) hjm
      · rw [show seenListIds [⟨i, t⟩] = [i] from rfl] at hjm
        have hji : j = i := by simpa using hjm
        subst hji
        exact (List.nodup_cons.mp hnd).1 hj
    have hrec := ih (st ++ [(⟨i, t⟩ : SeenRow)]) hfresh2 (List.nodup_cons.mp hnd).2
    rw [hrec]
    simp [List.append_assoc]

/-- C3 counterexample: record `"x"` (scan 1); scan 2 observes `"x"` *again*
together with 2000 fresh listings and records all of them — the cap evicts the
oldest-by-first-seen row, which is `"x"` (its stamp was not refreshed); scan 3
fetches `"x"` once more and the diff output *contains* `"x"`, so a recorded id
does re-appear in a subsequent diff even though every scan recorded all
observed listings. -/
theorem recordSeen_realert_counterexample :
    "x" ∈ seenListIds (addSeenIds [] ["x"] 0) ∧
    xListing ∈ (runDiffs (addSeenIds [] ["x"] 0)
      [(xListing :: freshListings, 1), ([xListing], 2)]).getD 1 [] := by
  have hst1 : addSeenIds [] ["x"] 0 = [⟨"x", 0⟩] := by
    unfold addSeenIds
    rw [if_neg (by decide)]
    rw [show insertSeenIds [] ["x"] 0 = [⟨"x", 0⟩] from rfl]
    exact enforceCap_eq_of_le (by decide)
  constructor
  · rw [hst1]
    exact List.mem_singleton.mpr rfl
  · -- the ids observed by scan 2
    have hids2 : (xListing :: freshListings).map (fun l => l.list_id) = "x" :: freshIds := by
      rw [List.map_cons, freshListings_ids]
      rfl
    -- the insert of scan 2: "x" is ignored, the 2000 fresh rows are appended
    have hins2 : insertSeenIds [⟨"x", 0⟩] ("x" :: freshIds) 1
        = [⟨"x", 0⟩] ++ freshIds.map (fun i => (⟨i, 1⟩ : SeenRow)) := by
      rw [insertSeenIds_cons]
      rw [show insertSeenId [(⟨"x", 0⟩ : SeenRow)] "x" 1 = [(⟨"x", 0⟩ : SeenRow)] from rfl]
      exact insertSeenIds_fresh 1 freshIds [⟨"x", 0⟩]
        (by
          intro i hi hmem
          have : i = "x" := by simpa [seenListIds] using hmem
          exact freshIds_not_x i hi this)
        freshIds_nodup
  -- the inserted table is sorted by first-seen (0 then all 1)
    have hsorted2 : sortedByFirstSeen ([⟨"x", 0⟩] ++ freshIds.map (fun i => (⟨i, 1⟩ : SeenRow))) = true := by
      apply sorted_append (by rfl) (sorted_const_map 1 freshIds)
      intro x hx y hy
      have hx0 : x = ⟨"x", 0⟩ := by simpa using hx
      obtain ⟨i, _, rfl⟩ := List.mem_map.mp hy
      rw [hx0]
      exact Nat.zero_le _
    -- scan 2's record: the cap evicts the "x" row
    have hst2 : addSeenIds [⟨"x", 0⟩] ("x" :: freshIds) 1 = freshIds.map (fun i => (⟨i, 1⟩ : SeenRow)) := by
      unfold addSeenIds
      rw [if_neg (by decide)]
      rw [hins2, enforceCap_sorted_drop _ hsorted2]
      have hlen : ([(⟨"x", 0⟩ : SeenRow)] ++ freshIds.map (fun i => (⟨i, 1⟩ : SeenRow))).length
          = SEEN_IDS_CAP + 1 := by
        rw [List.length_append, List.length_map, freshIds_length]
        rfl
      rw [hlen]
      rw [show SEEN_IDS_CAP + 1 - SEEN_IDS_CAP = 1 from by omega]
      rw [List.singleton_append]
      rw [List.drop_succ_cons, List.drop_zero]
    -- "x" is no longer in the seen-set scan 3 reads
    have hnotin : ¬ ((seenListIds (freshIds.map (fun i => (⟨i, 1⟩ : SeenRow)))).contains "x" = true) := by
      intro hc
      have hmem := List.elem_iff.mp hc
      unfold seenListIds at hmem
      rw [List.map_map] at hmem
      obtain ⟨i, hi, hix⟩ := List.mem_map.mp hmem
      exact freshIds_not_x i hi hix
    -- hence scan 3's diff keeps xListing
    have hdiff3 : computeDiff [xListing] (seenListIds (freshIds.map (fun i => (⟨i, 1⟩ : SeenRow))))
        = [xListing] := by
      unfold computeDiff
      rw [List.filter_cons]
      rw [show (xListing.list_id) = "x" from rfl]
      simp only [Bool.not_eq_true] at hnotin
      rw [show ((seenListIds (List.map (fun i => (⟨i, 1⟩ : SeenRow)) freshIds)).contains "x")
          = false from by
        cases hb : ((seenListIds (List.map (fun i => (⟨i, 1⟩ : SeenRow)) freshIds)).contains "x") with
        | false => rfl
        | true => exact absurd hb (by rw [hnotin]; simp)]
      rfl
    -- evaluate the run
    rw [hst1]
    rw [runDiffs_cons, runDiffs_cons]
    rw [show ∀ (a b : List Listing) (r : List (List Listing)), (a :: b :: r).getD 1 [] = b
        from fun a b r => rfl]
    unfold scanStep
    rw [hids2, hst2, hdiff3]
    exact List.mem_singleton.mpr rfl

/-! ## Scan orchestrator: `fetchAllPages` (claims C4, C5)

The network is abstracted by an oracle environment: `initialBuildId` is the
result of `getBuildId(humanUrl)` (resolver, possibly cached), `refreshBuildId`
the result of the single forced `extractBuildId(humanUrl)` a 404 may trigger
(`MAX_RETRIES = 1`, so it is consulted at most once per run), and
`fetchPage b p` the `(ads, status)` that `fetchPage(buildDataUrl(url, b, p))`
returns — the data URL is a function of the buildId and the page number, and
`fetchPage` has already applied its validity filter to the result array.
Wall-clock time (`duration_ms`, the 500 ms inter-page pause) is not modelled;
the buildId-cache update in the refresh branch is process state with no effect
on the run and is dropped. -/

inductive StopReason
  | completed | limit | loop | error | empty | budget
deriving DecidableEq, Repr

structure FetchEnv where
  initialBuildId : Option String
  refreshBuildId : Option String
  fetchPage : String → Nat → List OlxAd × Nat

structure LoopState where
  page : Nat
  retryCount : Nat
  buildId : String
  listings : List Listing
  seenIds : List String
  pageFirstIds : List (Nat × String)
  requestsCount : Nat
deriving DecidableEq, Repr

structure FetchStats where
  listings : List Listing
  sp_min : Nat
  sp_max : Nat
  stop_reason : StopReason
  duration_ms : Nat
  requests_count : Nat
  first_list_id : Option String
  error_message : Option String
deriving DecidableEq, Repr

/-- The parse-and-dedupe block of the page loop: run-local dedup by
`String(ad.listId)` (independent of the persisted seen-set), `parseAd` on each
not-yet-seen ad (a parse `TypeError` propagates out of the loop). -/
def accumulate (searchId now : String) :
    List String → List Listing → List OlxAd → Except String (List String × List Listing)
  | seen, acc, [] => .ok (seen, acc)
  | seen, acc, ad :: rest =>
    let lid := jsStringOfListId ad.listId
    if seen.contains lid then accumulate searchId now seen acc rest
    else
      match parseAd ad searchId now with
      | .error e => .error e
      | .ok l => accumulate searchId now (seen ++ [lid]) (acc ++ [l]) rest

/-- One iteration of the `for (; page <= maxPages; page++)` loop of
`fetchAllPages`; `recur` continues the loop (`page--; continue` in the refresh
branch keeps the same page number).  Returned are the loop state at exit, the
stop reason and the optional error message. -/
def fetchLoopStep (env : FetchEnv) (searchId now : String) (maxPages : Nat)
    (recur : LoopState → Except String (LoopState × StopReason × Option String))
    (s : LoopState) : Except String (LoopState × StopReason × Option String) :=
  if s.page > maxPages then .ok (s, .completed, none)
  else
    let ads := (env.fetchPage s.buildId s.page).1
    let status := (env.fetchPage s.buildId s.page).2
    let s1 : LoopState := { s with requestsCount := s.requestsCount + 1 }
    if status = 404 ∧ s.retryCount < 1 then
      let s2 : LoopState := { s1 with requestsCount := s1.requestsCount + 1 }
      match env.refreshBuildId with
      | some newId =>
        if newId ≠ s.buildId then
          recur { s2 with buildId := newId, retryCount := s.retryCount + 1 }
        else .ok (s2, .error, some "BuildId expired and refresh failed")
      | none => .ok (s2, .error, some "BuildId expired and refresh failed")
    else if status = 404 then
      .ok (s1, .error, some "Page 404 (likely buildId) after retry")
    else if status ≠ 200 then
      .ok (s1, .error, some ("HTTP " ++ toString status))
    else
      match ads with
      | [] => .ok (s1, (if s1.page = 1 then StopReason.empty else .completed), none)
      | a :: _ =>
        let firstId := jsStringOfListId a.listId
        if s1.pageFirstIds.any (fun pf => pf.2 == firstId) then .ok (s1, .loop, none)
        else
          let s2 : LoopState :=
            { s1 with pageFirstIds := s1.pageFirstIds ++ [(s1.page, firstId)] }
          match accumulate searchId now s2.seenIds s2.listings ads with
          | .error e => .error e
          | .ok res => recur { s2 with seenIds := res.1, listings := res.2, page := s2.page + 1 }

/-- The page loop, fuel-bounded: each iteration either advances the page (at
most `maxPages` times starting from page 1) or consumes the single retry
budget, so `maxPages + 2` fuel always reaches the loop exit. -/
def fetchLoop (env : FetchEnv) (searchId now : String) (maxPages : Nat) :
    Nat → LoopState → Except String (LoopState × StopReason × Option String)
  | 0, s => .ok (s, .completed, none)
  | Nat.succ fuel, s =>
    fetchLoopStep env searchId now maxPages (fetchLoop env searchId now maxPages fuel) s

def MAX_PAGES : Nat := 5

/-- `fetchAllPages(humanUrl, searchId, maxPages)`. -/
def fetchAllPages (env : FetchEnv) (searchId now : String)
    (maxPages : Nat := MAX_PAGES) : Except String FetchStats :=
  match env.initialBuildId with
  | none =>
    .ok { listings := [], sp_min := 0, sp_max := 0, stop_reason := .error,
          error_message := some "Could not resolve buildId", duration_ms := 0,
          requests_count := 1, first_list_id := none }
  | some buildId =>
    match fetchLoop env searchId now maxPages (maxPages + 2)
        { page := 1, retryCount := 0, buildId := buildId, listings := [],
          seenIds := [], pageFirstIds := [], requestsCount := 1 } with
    | .error e => .error e
    | .ok (s, reason, msg) =>
      let reason' := if s.page > maxPages ∧ reason = StopReason.completed
                     then StopReason.limit else reason
      .ok { listings := s.listings, sp_min := 1, sp_max := min s.page maxPages,
            stop_reason := reason', duration_ms := 0, requests_count := s.requestsCount,
            first_list_id := s.pageFirstIds.lookup 1,
            error_message := msg }

theorem accumulate_extends (searchId now : String) :
    ∀ (ads : List OlxAd) (seen : List String) (acc : List Listing) (seen2 : List String)
      (ls2 : List Listing),
      accumulate searchId now seen acc ads = .ok (seen2, ls2) →
      ∃ added, ls2 = acc ++ added := by
  intro ads
  induction ads with
  | nil =>
    intro seen acc seen2 ls2 h
    rw [show accumulate searchId now seen acc [] = .ok (seen, acc) from rfl] at h
    obtain ⟨-, h2⟩ : seen = seen2 ∧ acc = ls2 := by
      have := Except.ok.inj h
      exact ⟨congrArg Prod.fst this, congrArg Prod.snd this⟩
    exact ⟨[], by rw [← h2, List.append_nil]⟩
  | cons ad rest ih =>
    intro seen acc seen2 ls2 h
    rw [show accumulate searchId now seen acc (ad :: rest)
        = (if seen.contains (jsStringOfListId ad.listId) then
             accumulate searchId now seen acc rest
           else
             match parseAd ad searchId now with
             | .error e => .error e
             | .ok l => accumulate searchId now (seen ++ [jsStringOfListId ad.listId])
                 (acc ++ [l]) rest) from rfl] at h
    by_cases hc : seen.contains (jsStringOfListId ad.listId) = true
    · rw [if_pos hc] at h
      exact ih seen acc seen2 ls2 h
    · rw [if_neg hc] at h
      rcases hp : parseAd ad searchId now with e | l
      · rw [hp] at h
        exact absurd h (by simp)
      · rw [hp] at h
        obtain ⟨added, hadd⟩ := ih _ _ _ _ h
        exact ⟨l :: added, by rw [hadd, List.append_assoc]; rfl⟩

/-- Reduction of one loop iteration whose page fetch succeeded (HTTP 200) with
a non-empty result array: only the anti-loop check and the
accumulate-and-advance remain. -/
theorem fetchLoopStep_ok200 (env : FetchEnv) (searchId now : String) (maxPages : Nat)
    (recur : LoopState → Except String (LoopState × StopReason × Option String))
    (s : LoopState) (a : OlxAd) (rest : List OlxAd)
    (hpage : s.page ≤ maxPages)
    (hfetch : env.fetchPage s.buildId s.page = (a :: rest, 200)) :
    fetchLoopStep env searchId now maxPages recur s
      = (if ({ s with requestsCount := s.requestsCount + 1 } : LoopState).pageFirstIds.any
            (fun pf => pf.2 == jsStringOfListId a.listId) then
           .ok ({ s with requestsCount := s.requestsCount + 1 }, .loop, none)
         else
           match accumulate searchId now s.seenIds s.listings (a :: rest) with
           | .error e => .error e
           | .ok res =>
             recur { s with
                      requestsCount := s.requestsCount + 1,
                      pageFirstIds := s.pageFirstIds ++ [(s.page, jsStringOfListId a.listId)],
                      seenIds := res.1, listings := res.2, page := s.page + 1 }) := by
  unfold fetchLoopStep
  rw [if_neg (by omega : ¬ s.page > maxPages)]
  rw [hfetch]
  dsimp only
  rw [if_neg (by simp : ¬ ((200 : Nat) = 404 ∧ s.retryCount < 1))]
  rw [if_neg (by simp : ¬ ((200 : Nat) = 404))]
  rw [if_neg (by simp : ¬ ((200 : Nat) ≠ 200))]

/-- Reduction of one loop iteration whose page fetch returned HTTP 404: only
the refresh/retry analysis remains. -/
theorem fetchLoopStep_404 (env : FetchEnv) (searchId now : String) (maxPages : Nat)
    (recur : LoopState → Except String (LoopState × StopReason × Option String))
    (s : LoopState) (ads : List OlxAd)
    (hpage : s.page ≤ maxPages)
    (hfetch : env.fetchPage s.buildId s.page = (ads, 404)) :
    fetchLoopStep env searchId now maxPages recur s
      = (if s.retryCount < 1 then
           match env.refreshBuildId with
           | some newId =>
             if newId ≠ s.buildId then
               recur { s with
                        buildId := newId, retryCount := s.retryCount + 1,
                        requestsCount := s.requestsCount + 1 + 1 }
             else .ok ({ s with requestsCount := s.requestsCount + 1 + 1 }, .error,
                 some "BuildId expired and refresh failed")
           | none => .ok ({ s with requestsCount := s.requestsCount + 1 + 1 }, .error,
               some "BuildId expired and refresh failed")
         else .ok ({ s with requestsCount := s.requestsCount + 1 }, .error,
             some "Page 404 (likely buildId) after retry")) := by
  unfold fetchLoopStep
  rw [if_neg (by omega : ¬ s.page > maxPages)]
  rw [hfetch]
  dsimp only
  by_cases hr : s.retryCount < 1
  · rw [if_pos (⟨rfl, hr⟩ : (404 : Nat) = 404 ∧ s.retryCount < 1), if_pos hr]
  · rw [if_neg (fun hand => hr hand.2), if_neg hr]
    rw [if_pos (rfl : (404 : Nat) = 404)]

/-- C4: in any run state of the page loop (any reachable page of any run),
when the current page's fetch returns a non-empty result array (the source's
`fetchPage` produces a non-empty array only with status 200): if the page's
first listing id equals the recorded first id of *any* previously accepted
page of the run, the run ends with stop reason `loop` and none of the page's
listings are accumulated (the state's listing list is unchanged in the exit
state); otherwise the page's first id is recorded in `pageFirstIds`, its
listings are appended to the accumulated set, and the loop proceeds to the
next page. -/
theorem fetchLoop_antiloop (env : FetchEnv) (searchId now : String) (maxPages fuel : Nat)
    (s : LoopState) (a : OlxAd) (rest : List OlxAd)
    (hpage : s.page ≤ maxPages)
    (hfetch : env.fetchPage s.buildId s.page = (a :: rest, 200)) :
    (∀ p fid, (p, fid) ∈ s.pageFirstIds → fid = jsStringOfListId a.listId →
      fetchLoop env searchId now maxPages (fuel + 1) s
        = .ok ({ s with requestsCount := s.requestsCount + 1 }, .loop, none)) ∧
    ((∀ p fid, (p, fid) ∈ s.pageFirstIds → fid ≠ jsStringOfListId a.listId) →
      ∀ seen2 ls2,
        accumulate searchId now s.seenIds s.listings (a :: rest) = .ok (seen2, ls2) →
        (∃ added, ls2 = s.listings ++ added) ∧
        fetchLoop env searchId now maxPages (fuel + 1) s
          = fetchLoop env searchId now maxPages fuel
              { s with requestsCount := s.requestsCount + 1,
                       pageFirstIds := s.pageFirstIds ++ [(s.page, jsStringOfListId a.listId)],
                       seenIds := seen2, listings := ls2, page := s.page + 1 }) := by
  have hstep : fetchLoop env searchId now maxPages (fuel + 1) s
      = fetchLoopStep env searchId now maxPages (fetchLoop env searchId now maxPages fuel) s :=
    rfl
  constructor
  · intro p fid hmem heq
    rw [hstep, fetchLoopStep_ok200 env searchId now maxPages _ s a rest hpage hfetch]
    rw [if_pos]
    apply List.any_eq_true.mpr
    exact ⟨(p, fid), hmem, by simp [heq]⟩
  · intro hnone seen2 ls2 hacc
    refine ⟨accumulate_extends searchId now _ _ _ _ _ hacc, ?_⟩
    rw [hstep, fetchLoopStep_ok200 env searchId now maxPages _ s a rest hpage hfetch]
    rw [if_neg]
    · rw [hacc]
    · intro hany
      obtain ⟨⟨p, fid⟩, hmem, hbeq⟩ := List.any_eq_true.mp hany
      exact hnone p fid hmem (by simpa using hbeq)

/-- C5: in any run state of the page loop, when the current page's fetch
returns HTTP 404: with the retry budget unused, exactly one forced-refresh
resolve is consulted (one extra request); if it yields a *different*
identifier, the identifier is updated and the *same* page number is retried
with the single retry budget consumed (the page counter does not advance);
if it fails or yields the same identifier, the run ends with stop reason
`error`.  With the budget already used, a 404 ends the run with stop reason
`error` (so at most one refresh retry ever occurs per run). -/
theorem fetchLoop_stale_refresh (env : FetchEnv) (searchId now : String) (maxPages fuel : Nat)
    (s : LoopState) (ads : List OlxAd)
    (hpage : s.page ≤ maxPages)
    (hfetch : env.fetchPage s.buildId s.page = (ads, 404)) :
    (∀ newId, s.retryCount = 0 → env.refreshBuildId = some newId → newId ≠ s.buildId →
      fetchLoop env searchId now maxPages (fuel + 1) s
        = fetchLoop env searchId now maxPages fuel
            { s with buildId := newId, retryCount := 1,
                     requestsCount := s.requestsCount + 2 }) ∧
    (s.retryCount = 0 → (env.refreshBuildId = none ∨ env.refreshBuildId = some s.buildId) →
      fetchLoop env searchId now maxPages (fuel + 1) s
        = .ok ({ s with requestsCount := s.requestsCount + 2 }, .error,
            some "BuildId expired and refresh failed")) ∧
    (1 ≤ s.retryCount →
      fetchLoop env searchId now maxPages (fuel + 1) s
        = .ok ({ s with requestsCount := s.requestsCount + 1 }, .error,
            some "Page 404 (likely buildId) after retry")) := by
  have hstep : fetchLoop env searchId now maxPages (fuel + 1) s
      = fetchLoopStep env searchId now maxPages (fetchLoop env searchId now maxPages fuel) s :=
    rfl
  refine ⟨?_, ?_, ?_⟩
  · intro newId hretry hrefresh hne
    rw [hstep, fetchLoopStep_404 env searchId now maxPages _ s ads hpage hfetch]
    rw [if_pos (by omega : s.retryCount < 1), hrefresh]
    dsimp only
    rw [if_pos hne]
    rw [show s.retryCount + 1 = 1 from by omega]
  · intro hretry hrefresh
    rw [hstep, fetchLoopStep_404 env searchId now maxPages _ s ads hpage hfetch]
    rw [if_pos (by omega : s.retryCount < 1)]
    rcases hrefresh with hr | hr
    · rw [hr]
    · rw [hr]
      dsimp only
      rw [if_neg (by simp)]
  · intro hretry
    rw [hstep, fetchLoopStep_404 env searchId now maxPages _ s ads hpage hfetch]
    rw [if_neg (by omega : ¬ s.retryCount < 1)]

/-- A minimal valid ad for concrete loop scenarios. -/
def adA (n : Nat) : OlxAd :=
  { listId := some n, subject := none, url := some "/a", price := none,
    municipality := none, neighbourhood := none, properties := none,
    thumbnail := none, date := none }

/-- Environment for the anti-loop scenario: pages 1, 2, 3 return first ids
10, 20, 10 — page 3 repeats page 1's first id. -/
def env4 : FetchEnv :=
  { initialBuildId := some "B1", refreshBuildId := none,
    fetchPage := fun _ p =>
      if p = 1 then ([adA 10], 200)
      else if p = 2 then ([adA 20], 200)
      else if p = 3 then ([adA 10], 200)
      else ([], 200) }

/-- The loop state on reaching page 3 of an `env4` run (pages 1 and 2
accepted). -/
def s3 : LoopState :=
  { page := 3, retryCount := 0, buildId := "B1",
    listings := [], seenIds := ["10", "20"],
    pageFirstIds := [(1, "10"), (2, "20")], requestsCount := 3 }

/-- Witness for `fetchLoop_antiloop`: at page 3, whose first id matches the
*first* (not the immediately preceding) recorded page, the run stops with
reason `loop` and accumulates nothing. -/
theorem fetchLoop_antiloop_witness :
    s3.page ≤ 5 ∧ env4.fetchPage s3.buildId s3.page = ([adA 10], 200) ∧
    fetchLoop env4 "s1" "t0" 5 5 s3
      = .ok ({ s3 with requestsCount := s3.requestsCount + 1 }, .loop, none) :=
  ⟨by decide, by decide,
   (fetchLoop_antiloop env4 "s1" "t0" 5 4 s3 (adA 10) [] (by decide) (by decide)).1
     1 "10" (by decide) (by decide)⟩

/-- End-to-end check of the same scenario: the full `fetchAllPages` run over
`env4` ends with stop reason `loop`, and only the two accepted pages'
listings (one each) are in the result — page 3's repeat was discarded. -/
theorem fetchAllPages_loop_example :
    (fetchAllPages env4 "s1" "t0").toOption.map
        (fun st => (st.stop_reason, st.listings.length, st.first_list_id))
      = some (StopReason.loop, 2, some "10") := by
  rfl

/-- Environment for the stale-identifier scenario: every data fetch under the
stale `"B1"` identifier is a 404; after the forced refresh to `"B2"`, page 1
has one ad and later pages are empty. -/
def env5 : FetchEnv :=
  { initialBuildId := some "B1", refreshBuildId := some "B2",
    fetchPage := fun b p =>
      if b = "B1" then ([], 404)
      else if p = 1 then ([adA 10], 200)
      else ([], 200) }

/-- The initial loop state of an `env5` run. -/
def s5 : LoopState :=
  { page := 1, retryCount := 0, buildId := "B1", listings := [], seenIds := [],
    pageFirstIds := [], requestsCount := 1 }

/-- Witness for `fetchLoop_stale_refresh`: the 404 with unused budget consults
the refresh once, adopts the different identifier `"B2"`, consumes the retry
budget and retries the *same* page number. -/
theorem fetchLoop_stale_refresh_witness :
    env5.fetchPage s5.buildId s5.page = ([], 404) ∧ s5.retryCount = 0 ∧
    fetchLoop env5 "s1" "t0" 5 7 s5
      = fetchLoop env5 "s1" "t0" 5 6
          { s5 with buildId := "B2", retryCount := 1,
                    requestsCount := s5.requestsCount + 2 } :=
  ⟨by decide, rfl,
   (fetchLoop_stale_refresh env5 "s1" "t0" 5 6 s5 [] (by decide) (by decide)).1
     "B2" rfl rfl (by decide)⟩

/-- End-to-end check of the same scenario: one 404, one successful refresh,
the same page retried once, then a normal run — the page is not
double-counted in `sp_max` and exactly 5 requests are made (resolver, 404
fetch, refresh, retried page-1 fetch, empty page-2 fetch). -/
theorem fetchAllPages_refresh_example :
    (fetchAllPages env5 "s1" "t0").toOption.map
        (fun st => (st.stop_reason, st.sp_max, st.requests_count))
      = some (StopReason.completed, 2, 5) := by
  rfl

/-! ## Opportunity scorer: `handleGetOpportunities` (claim C6)

JS numbers are modelled as exact rationals; the comparison constants `0.92`,
`0.95`, `0.90` are the exact rationals `92/100` etc.  All model arithmetic is
written with `Rat.divInt`-based operations so that every concrete computation
reduces inside the kernel; bridge lemmas equate them with the ordinary `ℚ`
operations.  `parsePrice` (locale-string to number) is kept abstract: the
model's alert carries the parsed numeric price, and the claims quantify over
parsed prices.  The SQL prefix of the handler (alert loading, `ORDER BY
created_at DESC`) supplies the input list; presentation-only fields
(badges, explanations, rounded percentage) and the wall-clock recency badge
are not modelled. -/

def jsAdd (a b : ℚ) : ℚ := Rat.divInt (a.num * b.den + b.num * a.den) (a.den * b.den)

def jsSub (a b : ℚ) : ℚ := Rat.divInt (a.num * b.den - b.num * a.den) (a.den * b.den)

def jsMul (a b : ℚ) : ℚ := Rat.divInt (a.num * b.num) (a.den * b.den)

def jsDiv (a b : ℚ) : ℚ := Rat.divInt (a.num * b.den) (a.den * b.num)

theorem den_cast_ne {a : ℚ} : ((a.den : ℚ)) ≠ 0 := by
  exact_mod_cast a.den_ne_zero

theorem jsAdd_eq (a b : ℚ) : jsAdd a b = a + b := by
  rw [jsAdd, Rat.divInt_eq_div]
  push_cast
  conv_rhs => rw [← Rat.num_div_den a, ← Rat.num_div_den b]
  rw [div_add_div _ _ den_cast_ne den_cast_ne]
  ring_nf

theorem jsSub_eq (a b : ℚ) : jsSub a b = a - b := by
  rw [jsSub, Rat.divInt_eq_div]
  push_cast
  conv_rhs => rw [← Rat.num_div_den a, ← Rat.num_div_den b]
  rw [div_sub_div _ _ den_cast_ne den_cast_ne]
  ring_nf

theorem jsMul_eq (a b : ℚ) : jsMul a b = a * b := by
  rw [jsMul, Rat.divInt_eq_div]
  push_cast
  conv_rhs => rw [← Rat.num_div_den a, ← Rat.num_div_den b]
  rw [div_mul_div_comm]

theorem jsDiv_eq (a b : ℚ) : jsDiv a b = a / b := by
  rw [jsDiv, Rat.divInt_eq_div]
  by_cases hb : b = 0
  · subst hb
    simp
  · have hbn : ((b.num : ℚ)) ≠ 0 := by
      exact_mod_cast Rat.num_ne_zero.mpr hb
    push_cast
    conv_rhs => rw [← Rat.num_div_den a, ← Rat.num_div_den b]
    rw [div_div_div_comm, div_mul_eq_div_div_swap]
    field_simp

/-- One loaded alert row as the scorer consumes it: the derived model, the
*parsed* numeric price (`parsePrice(alert.price)`), and the mileage. -/
structure AlertM where
  model : Option String
  price : ℚ
  mileage : Option ℚ
deriving DecidableEq, Repr

/-- JS `alert.model || 'Desconhecido'` (an empty-string model is falsy). -/
def jsOrUnknown (model : Option String) : String :=
  match model with
  | none => "Desconhecido"
  | some m => if m.isEmpty then "Desconhecido" else m

/-- `Map.get` + push on a `Map<string, number[]>`, in insertion order. -/
def upsertGroup (m : List (String × List ℚ)) (k : String) (v : ℚ) :
    List (String × List ℚ) :=
  match m with
  | [] => [(k, [v])]
  | (k2, vs) :: rest =>
    if k2 = k then (k2, vs ++ [v]) :: rest else (k2, vs) :: upsertGroup rest k v

/-- The price-collection pass: one entry per model, positive parsed prices
only. -/
def collectPrices (alerts : List AlertM) : List (String × List ℚ) :=
  alerts.foldl
    (fun m a => if 0 < a.price then upsertGroup m (jsOrUnknown a.model) a.price else m) []

/-- The mileage-collection pass (`alert.mileage && alert.mileage > 0`). -/
def collectKms (alerts : List AlertM) : List (String × List ℚ) :=
  alerts.foldl
    (fun m a =>
      match a.mileage with
      | some km => if 0 < km then upsertGroup m (jsOrUnknown a.model) km else m
      | none => m) []

/-- `arr.sort((a, b) => a - b)` — ascending numeric sort (insertion sort). -/
def insertAsc (x : ℚ) : List ℚ → List ℚ
  | [] => [x]
  | y :: ys => if x ≤ y then x :: y :: ys else y :: insertAsc x ys

def sortAsc (l : List ℚ) : List ℚ := l.foldr insertAsc []

/-- `getMedian`: sort ascending; odd length takes the middle element, even
length averages the two central values. -/
def getMedian (arr : List ℚ) : ℚ :=
  let sorted := sortAsc arr
  let mid := sorted.length / 2
  if sorted.length % 2 = 1 then sorted.getD mid 0
  else jsDiv (jsAdd (sorted.getD (mid - 1) 0) (sorted.getD mid 0)) 2

/-- Median map over the groups with at least `minGroupSize` samples. -/
def buildMedians (groups : List (String × List ℚ)) (minGroupSize : Nat) :
    List (String × ℚ) :=
  groups.filterMap
    (fun g => if minGroupSize ≤ g.2.length then some (g.1, getMedian g.2) else none)

def priceMedians (alerts : List AlertM) (minGroupSize : Nat) : List (String × ℚ) :=
  buildMedians (collectPrices alerts) minGroupSize

def kmMedians (alerts : List AlertM) (minGroupSize : Nat) : List (String × ℚ) :=
  buildMedians (collectKms alerts) minGroupSize

/-- A scored opportunity row (presentation fields omitted). -/
structure ScoredAlert where
  alert : AlertM
  median : ℚ
  score : ℚ
deriving DecidableEq, Repr

/-- JS `medianKm && km > 0` (a `0` median would also be falsy). -/
def kmTruthy (mkOpt : Option ℚ) (kmv : ℚ) : Bool :=
  match mkOpt with
  | some mk => !(decide (mk = 0)) && decide (0 < kmv)
  | none => false

/-- The per-alert body of the `.map` in `handleGetOpportunities`: `null` for
non-opportunities, otherwise the scored row. -/
def scoreAlert (pm kmm : List (String × ℚ)) (a : AlertM) : Option ScoredAlert :=
  let mdl := jsOrUnknown a.model
  let mpOpt := pm.lookup mdl
  let mkOpt := kmm.lookup mdl
  let kmv : ℚ := a.mileage.getD 0
  match mpOpt with
  | none => none
  | some mp =>
    if mp = 0 then none
    else if a.price ≤ 0 then none
    else
      let priceFrac := jsDiv a.price mp
      let kmFrac := if kmTruthy mkOpt kmv then jsDiv kmv (mkOpt.getD 1) else 1
      let isOpp : Bool :=
        if priceFrac ≤ mkRat 92 100 then true
        else if priceFrac ≤ mkRat 95 100 ∧ kmTruthy mkOpt kmv = true
            ∧ kmFrac ≤ mkRat 90 100 then true
        else false
      if isOpp then
        some { alert := a, median := mp,
               score :=
                 if kmTruthy mkOpt kmv then
                   jsAdd (jsMul (jsSub 1 priceFrac) 100) (jsDiv (jsMul (jsSub 1 kmFrac) 100) 2)
                 else jsMul (jsSub 1 priceFrac) 100 }
      else none

/-- `.sort((a, b) => (b?.score || 0) - (a?.score || 0))` — descending stable
insertion sort by score. -/
def insertDesc (x : ScoredAlert) : List ScoredAlert → List ScoredAlert
  | [] => [x]
  | y :: ys => if y.score ≤ x.score then x :: y :: ys else y :: insertDesc x ys

def sortDescByScore (l : List ScoredAlert) : List ScoredAlert :=
  l.foldr insertDesc []

/-- The opportunity pipeline of `handleGetOpportunities` after the alerts are
loaded: score every alert (`map` + `filter(Boolean)` = `filterMap`), sort
descending by score, truncate to the requested limit. -/
def opportunities (alerts : List AlertM) (minGroupSize limit : Nat) : List ScoredAlert :=
  (sortDescByScore
    (alerts.filterMap (scoreAlert (priceMedians alerts minGroupSize)
      (kmMedians alerts minGroupSize)))).take limit

/-! ### Median positivity and sorting lemmas -/

theorem mem_insertAsc {a x : ℚ} : ∀ {l : List ℚ}, a ∈ insertAsc x l ↔ a = x ∨ a ∈ l := by
  intro l
  induction l with
  | nil => simp [insertAsc]
  | cons y ys ih =>
    rw [show insertAsc x (y :: ys) = (if x ≤ y then x :: y :: ys else y :: insertAsc x ys) from rfl]
    by_cases hc : x ≤ y
    · rw [if_pos hc]
      simp
    · rw [if_neg hc]
      simp only [List.mem_cons, ih]
      tauto

theorem mem_sortAsc {a : ℚ} : ∀ {l : List ℚ}, a ∈ sortAsc l ↔ a ∈ l := by
  intro l
  induction l with
  | nil => simp [sortAsc]
  | cons y ys ih =>
    rw [show sortAsc (y :: ys) = insertAsc y (sortAsc ys) from rfl]
    rw [mem_insertAsc]
    simp [ih]

theorem length_insertAsc (x : ℚ) : ∀ (l : List ℚ), (insertAsc x l).length = l.length + 1 := by
  intro l
  induction l with
  | nil => rfl
  | cons y ys ih =>
    rw [show insertAsc x (y :: ys) = (if x ≤ y then x :: y :: ys else y :: insertAsc x ys) from rfl]
    by_cases hc : x ≤ y
    · rw [if_pos hc]
      rfl
    · rw [if_neg hc]
      simp [ih]

theorem length_sortAsc : ∀ (l : List ℚ), (sortAsc l).length = l.length := by
  intro l
  induction l with
  | nil => rfl
  | cons y ys ih =>
    rw [show sortAsc (y :: ys) = insertAsc y (sortAsc ys) from rfl]
    rw [length_insertAsc, ih]
    rfl

theorem getD_pos {l : List ℚ} (hpos : ∀ x ∈ l, 0 < x) : ∀ {k : Nat}, k < l.length →
    0 < l.getD k 0 := by
  induction l with
  | nil => intro k hk; simp at hk
  | cons y ys ih =>
    intro k hk
    cases k with
    | zero => exact hpos y (List.mem_cons_self _ _)
    | succ k =>
      rw [show (y :: ys).getD (k + 1) 0 = ys.getD k 0 from rfl]
      exact ih (fun x hx => hpos x (List.mem_cons_of_mem _ hx)) (by simpa using hk)

theorem getMedian_pos {l : List ℚ} (hne : l ≠ []) (hpos : ∀ x ∈ l, 0 < x) :
    0 < getMedian l := by
  have hlen : (sortAsc l).length = l.length := length_sortAsc l
  have hlpos : 0 < l.length := List.length_pos.mpr hne
  have hspos : ∀ x ∈ sortAsc l, 0 < x := fun x hx => hpos x (mem_sortAsc.mp hx)
  unfold getMedian
  by_cases hodd : (sortAsc l).length % 2 = 1
  · rw [if_pos hodd]
    exact getD_pos hspos (by omega)
  · rw [if_neg hodd]
    have heven : (sortAsc l).length % 2 = 0 := by omega
    have h2 : 2 ≤ (sortAsc l).length := by omega
    have hx := getD_pos hspos (k := (sortAsc l).length / 2 - 1) (by omega)
    have hy := getD_pos hspos (k := (sortAsc l).length / 2) (by omega)
    rw [jsDiv_eq, jsAdd_eq]
    positivity

/-- All groups built by the collection passes are non-empty lists of positive
samples. -/
def groupsPos (m : List (String × List ℚ)) : Prop :=
  ∀ g ∈ m, g.2 ≠ [] ∧ ∀ v ∈ g.2, 0 < v

theorem groupsPos_upsert {m : List (String × List ℚ)} {k : String} {v : ℚ}
    (hm : groupsPos m) (hv : 0 < v) : groupsPos (upsertGroup m k v) := by
  induction m with
  | nil =>
    intro g hg
    rw [show upsertGroup [] k v = [(k, [v])] from rfl] at hg
    rcases List.mem_singleton.mp hg with rfl
    exact ⟨by simp, by simpa using hv⟩
  | cons p rest ih =>
    obtain ⟨k2, vs⟩ := p
    rw [show upsertGroup ((k2, vs) :: rest) k v
        = (if k2 = k then (k2, vs ++ [v]) :: rest else (k2, vs) :: upsertGroup rest k v) from rfl]
    by_cases hc : k2 = k
    · rw [if_pos hc]
      intro g hg
      rcases List.mem_cons.mp hg with rfl | hg
      · refine ⟨by simp, ?_⟩
        intro x hx
        rcases List.mem_append.mp hx with hx | hx
        · exact (hm (k2, vs) (List.mem_cons_self _ _)).2 x hx
        · rw [List.mem_singleton.mp hx]
          exact hv
      · exact hm g (List.mem_cons_of_mem _ hg)
    · rw [if_neg hc]
      intro g hg
      rcases List.mem_cons.mp hg with rfl | hg
      · exact hm _ (List.mem_cons_self _ _)
      · exact ih (fun g2 hg2 => hm g2 (List.mem_cons_of_mem _ hg2)) g hg

theorem groupsPos_collect {f : List (String × List ℚ) → AlertM → List (String × List ℚ)}
    (hf : ∀ m a, groupsPos m → groupsPos (f m a)) :
    ∀ (alerts : List AlertM) (m : List (String × List ℚ)), groupsPos m →
      groupsPos (alerts.foldl f m) := by
  intro alerts
  induction alerts with
  | nil => intro m hm; exact hm
  | cons a rest ih =>
    intro m hm
    exact ih (f m a) (hf m a hm)

theorem groupsPos_collectPrices (alerts : List AlertM) : groupsPos (collectPrices alerts) := by
  unfold collectPrices
  apply groupsPos_collect
  · intro m a hm
    by_cases hc : 0 < a.price
    · rw [if_pos hc]
      exact groupsPos_upsert hm hc
    · rw [if_neg hc]
      exact hm
  · intro g hg
    simp at hg

theorem groupsPos_collectKms (alerts : List AlertM) : groupsPos (collectKms alerts) := by
  unfold collectKms
  apply groupsPos_collect
  · intro m a hm
    rcases hmil : a.mileage with _ | km
    · exact hm
    · dsimp only
      by_cases hc : 0 < km
      · rw [if_pos hc]
        exact groupsPos_upsert hm hc
      · rw [if_neg hc]
        exact hm
  · intro g hg
    simp at hg

theorem lookup_mem {l : List (String × ℚ)} {k : String} {v : ℚ}
    (h : List.lookup k l = some v) : (k, v) ∈ l := by
  induction l with
  | nil => simp [List.lookup] at h
  | cons p rest ih =>
    obtain ⟨k2, v2⟩ := p
    rw [List.lookup_cons] at h
    by_cases hc : (k == k2) = true
    · rw [hc] at h
      have hv : v2 = v := by simpa using h
      have hk : k = k2 := by simpa using hc
      rw [← hv, ← hk]
      exact List.mem_cons_self _ _
    · rw [Bool.not_eq_true] at hc
      rw [hc] at h
      exact List.mem_cons_of_mem _ (ih h)

theorem buildMedians_pos {groups : List (String × List ℚ)} {mgs : Nat} {k : String} {v : ℚ}
    (hg : groupsPos groups) (h : List.lookup k (buildMedians groups mgs) = some v) :
    0 < v := by
  have hmem := lookup_mem h
  unfold buildMedians at hmem
  obtain ⟨g, hgmem, hgeq⟩ := List.mem_filterMap.mp hmem
  by_cases hc : mgs ≤ g.2.length
  · rw [if_pos hc] at hgeq
    have hv : getMedian g.2 = v := congrArg Prod.snd (Option.some.inj hgeq)
    rw [← hv]
    exact getMedian_pos (hg g hgmem).1 (hg g hgmem).2
  · rw [if_neg hc] at hgeq
    simp at hgeq

theorem priceMedians_pos {alerts : List AlertM} {mgs : Nat} {k : String} {v : ℚ}
    (h : List.lookup k (priceMedians alerts mgs) = some v) : 0 < v :=
  buildMedians_pos (groupsPos_collectPrices alerts) h

theorem kmMedians_pos {alerts : List AlertM} {mgs : Nat} {k : String} {v : ℚ}
    (h : List.lookup k (kmMedians alerts mgs) = some v) : 0 < v :=
  buildMedians_pos (groupsPos_collectKms alerts) h

/-! ### Descending-sort lemmas -/

theorem mem_insertDesc {a x : ScoredAlert} :
    ∀ {l : List ScoredAlert}, a ∈ insertDesc x l ↔ a = x ∨ a ∈ l := by
  intro l
  induction l with
  | nil => simp [insertDesc]
  | cons y ys ih =>
    rw [show insertDesc x (y :: ys)
        = (if y.score ≤ x.score then x :: y :: ys else y :: insertDesc x ys) from rfl]
    by_cases hc : y.score ≤ x.score
    · rw [if_pos hc]
      simp
    · rw [if_neg hc]
      simp only [List.mem_cons, ih]
      tauto

theorem mem_sortDescByScore {a : ScoredAlert} :
    ∀ {l : List ScoredAlert}, a ∈ sortDescByScore l ↔ a ∈ l := by
  intro l
  induction l with
  | nil => simp [sortDescByScore]
  | cons y ys ih =>
    rw [show sortDescByScore (y :: ys) = insertDesc y (sortDescByScore ys) from rfl]
    rw [mem_insertDesc]
    simp [ih]

theorem sorted_insertDesc {x : ScoredAlert} :
    ∀ {l : List ScoredAlert}, l.Sorted (fun u v => v.score ≤ u.score) →
      (insertDesc x l).Sorted (fun u v => v.score ≤ u.score) := by
  intro l
  induction l with
  | nil => intro _; simp [insertDesc]
  | cons y ys ih =>
    intro hs
    rw [show insertDesc x (y :: ys)
        = (if y.score ≤ x.score then x :: y :: ys else y :: insertDesc x ys) from rfl]
    by_cases hc : y.score ≤ x.score
    · rw [if_pos hc]
      refine List.sorted_cons.mpr ⟨?_, hs⟩
      intro z hz
      rcases List.mem_cons.mp hz with rfl | hz
      · exact hc
      · exact (List.rel_of_sorted_cons hs z hz).trans hc
    · rw [if_neg hc]
      refine List.sorted_cons.mpr ⟨?_, ih (List.sorted_cons.mp hs).2⟩
      intro z hz
      rcases mem_insertDesc.mp hz with rfl | hz
      · exact le_of_not_le hc
      · exact List.rel_of_sorted_cons hs z hz

theorem sorted_sortDescByScore :
    ∀ (l : List ScoredAlert), (sortDescByScore l).Sorted (fun u v => v.score ≤ u.score) := by
  intro l
  induction l with
  | nil => simp [sortDescByScore]
  | cons y ys ih =>
    rw [show sortDescByScore (y :: ys) = insertDesc y (sortDescByScore ys) from rfl]
    exact sorted_insertDesc ih

/-! ### C6 bridging helpers -/

theorem mkRat_92 : (mkRat 92 100 : ℚ) = 92 / 100 := by
  rw [Rat.mkRat_eq_div]; norm_num

theorem mkRat_95 : (mkRat 95 100 : ℚ) = 95 / 100 := by
  rw [Rat.mkRat_eq_div]; norm_num

theorem mkRat_90 : (mkRat 90 100 : ℚ) = 90 / 100 := by
  rw [Rat.mkRat_eq_div]; norm_num

theorem isSome_ite_true {α : Type} (b : Bool) (r : α) :
    ((if b = true then some r else none).isSome = true) ↔ b = true := by
  cases b <;> simp

theorem ite_some_eq {α : Type} {b : Bool} {r s : α}
    (h : (if b = true then some r else none) = some s) : s = r := by
  cases b
  · simp at h
  · simpa using h.symm

theorem kmTruthy_some {mk kmv : ℚ} (h : 0 < mk) :
    kmTruthy (some mk) kmv = decide (0 < kmv) := by
  unfold kmTruthy
  simp [h.ne']

/-- **C6.** For every alert set, minimum group size and limit: an alert whose
model has a price median `mp` and whose parsed price is positive is flagged
iff `price/mp ≤ 0.92`, or (`price/mp ≤ 0.95` and a mileage median exists for
the model and the alert's mileage is positive with `km/medianKm ≤ 0.90`);
every produced row carries the alert, its price median, and the score
`(1 − price/mp)·100`, plus `((1 − km/medianKm)·100)/2` exactly when a mileage
median applies; the output contains only scored rows of input alerts, is
sorted descending by score, and has at most `limit` entries; and the median
is the middle element of the ascending sort for odd counts and the average of
the two central values for even counts. -/
theorem opportunity_scoring_spec (alerts : List AlertM) (mgs limit : Nat) :
    (∀ (a : AlertM) (mp : ℚ),
      (priceMedians alerts mgs).lookup (jsOrUnknown a.model) = some mp →
      0 < a.price →
      ((scoreAlert (priceMedians alerts mgs) (kmMedians alerts mgs) a).isSome = true ↔
        (a.price / mp ≤ 92 / 100 ∨
          (a.price / mp ≤ 95 / 100 ∧ ∃ mk,
            (kmMedians alerts mgs).lookup (jsOrUnknown a.model) = some mk ∧
            0 < a.mileage.getD 0 ∧ a.mileage.getD 0 / mk ≤ 90 / 100))))
    ∧ (∀ (a : AlertM) (s : ScoredAlert),
        scoreAlert (priceMedians alerts mgs) (kmMedians alerts mgs) a = some s →
        s.alert = a ∧
        (priceMedians alerts mgs).lookup (jsOrUnknown a.model) = some s.median ∧
        ((∃ mk, (kmMedians alerts mgs).lookup (jsOrUnknown a.model) = some mk ∧
            0 < a.mileage.getD 0 ∧
            s.score = (1 - a.price / s.median) * 100
              + ((1 - a.mileage.getD 0 / mk) * 100) / 2) ∨
          (s.score = (1 - a.price / s.median) * 100 ∧
            ∀ mk, (kmMedians alerts mgs).lookup (jsOrUnknown a.model) = some mk →
              a.mileage.getD 0 ≤ 0)))
    ∧ (∀ x ∈ opportunities alerts mgs limit, ∃ a ∈ alerts,
        scoreAlert (priceMedians alerts mgs) (kmMedians alerts mgs) a = some x)
    ∧ (opportunities alerts mgs limit).Sorted (fun u v => v.score ≤ u.score)
    ∧ (opportunities alerts mgs limit).length ≤ limit
    ∧ (∀ l : List ℚ, l.length % 2 = 1 → getMedian l = (sortAsc l).getD (l.length / 2) 0)
    ∧ (∀ l : List ℚ, l.length % 2 = 0 →
        getMedian l
          = ((sortAsc l).getD (l.length / 2 - 1) 0 + (sortAsc l).getD (l.length / 2) 0) / 2) := by
  refine ⟨?_, ?_, ?_, ?_, ?_, ?_, ?_⟩
  · intro a mp hmp hprice
    have hmp0 : mp ≠ 0 := (priceMedians_pos hmp).ne'
    dsimp only [scoreAlert]
    rw [hmp]
    dsimp only
    rw [if_neg hmp0, if_neg (not_le.mpr hprice)]
    rw [isSome_ite_true]
    simp only [jsDiv_eq, mkRat_92, mkRat_95, mkRat_90]
    by_cases h92 : a.price / mp ≤ 92 / 100
    · rw [if_pos h92]
      exact iff_of_true rfl (Or.inl h92)
    · rw [if_neg h92]
      cases hlk : List.lookup (jsOrUnknown a.model) (kmMedians alerts mgs) with
      | none =>
        simp [kmTruthy, h92]
      | some mk =>
        have hmkpos := kmMedians_pos hlk
        rw [kmTruthy_some hmkpos]
        by_cases hkv : 0 < a.mileage.getD 0
        · by_cases h90 : a.mileage.getD 0 / mk ≤ 90 / 100
          · by_cases h95 : a.price / mp ≤ 95 / 100
            · simp [hkv, h90, h95, h92]
            · simp [hkv, h90, h95, h92]
          · simp [hkv, h90, h92]
        · simp [hkv, h92]
  · intro a s hs
    dsimp only [scoreAlert] at hs
    cases hlp : List.lookup (jsOrUnknown a.model) (priceMedians alerts mgs) with
    | none =>
      rw [hlp] at hs
      exact absurd hs (by simp)
    | some mp =>
      rw [hlp] at hs
      dsimp only at hs
      by_cases hmp0 : mp = 0
      · rw [if_pos hmp0] at hs
        exact absurd hs (by simp)
      rw [if_neg hmp0] at hs
      by_cases hpr : a.price ≤ 0
      · rw [if_pos hpr] at hs
        exact absurd hs (by simp)
      rw [if_neg hpr] at hs
      have hsr := ite_some_eq hs
      subst hsr
      refine ⟨rfl, rfl, ?_⟩
      dsimp only
      cases hlk : List.lookup (jsOrUnknown a.model) (kmMedians alerts mgs) with
      | none =>
        refine Or.inr ⟨?_, fun mk hmk => by simp at hmk⟩
        rw [show kmTruthy none (a.mileage.getD 0) = false from rfl]
        rw [if_neg (by simp : ¬(false = true))]
        simp only [jsMul_eq, jsSub_eq, jsDiv_eq]
      | some mk =>
        have hmkpos := kmMedians_pos hlk
        rw [kmTruthy_some hmkpos]
        by_cases hkv : 0 < a.mileage.getD 0
        · refine Or.inl ⟨mk, rfl, hkv, ?_⟩
          have hcd : decide (0 < a.mileage.getD 0) = true := decide_eq_true hkv
          rw [if_pos hcd, if_pos hcd]
          simp only [Option.getD_some, jsAdd_eq, jsMul_eq, jsSub_eq, jsDiv_eq]
        · refine Or.inr ⟨?_, fun mk2 hmk2 => not_lt.mp hkv⟩
          have hcd : ¬(decide (0 < a.mileage.getD 0) = true) := by
            simp [hkv]
          rw [if_neg hcd]
          simp only [jsMul_eq, jsSub_eq, jsDiv_eq]
  · intro x hx
    unfold opportunities at hx
    have hx2 := List.take_subset _ _ hx
    obtain ⟨a, ha, hsa⟩ := List.mem_filterMap.mp (mem_sortDescByScore.mp hx2)
    exact ⟨a, ha, hsa⟩
  · unfold opportunities
    exact List.Pairwise.sublist (List.take_sublist _ _) (sorted_sortDescByScore _)
  · unfold opportunities
    rw [List.length_take]
    exact min_le_left _ _
  · intro l hodd
    simp only [getMedian]
    rw [length_sortAsc, if_pos hodd]
  · intro l heven
    simp only [getMedian]
    rw [length_sortAsc, if_neg (by omega : ¬l.length % 2 = 1)]
    rw [jsDiv_eq, jsAdd_eq]

/-- The spec's worked example: five `civic` alerts with prices
10000, 10000, 12000, 15000, 20000 (no mileage). -/
def exAlerts : List AlertM :=
  [⟨some "civic", 10000, none⟩, ⟨some "civic", 10000, none⟩, ⟨some "civic", 12000, none⟩,
   ⟨some "civic", 15000, none⟩, ⟨some "civic", 20000, none⟩]

/-- A `civic` alert priced 11000 (ratio 11/12 ≈ 0.917 ≤ 0.92). -/
def exA11 : AlertM := ⟨some "civic", 11000, none⟩

/-- A `civic` alert priced 20000 (ratio 5/3, not an opportunity). -/
def exA20 : AlertM := ⟨some "civic", 20000, none⟩

/-- Witness for C6 on the spec's example: the civic price median is 12000;
the 11000 listing is flagged with score 25/3 ≈ 8.3; the 20000 listing is not
flagged; and the flagging condition delivered by the theorem holds. -/
theorem opportunity_scoring_spec_witness :
    List.lookup "civic" (priceMedians exAlerts 3) = some 12000
    ∧ (scoreAlert (priceMedians exAlerts 3) (kmMedians exAlerts 3) exA11).isSome = true
    ∧ Option.map ScoredAlert.score
        (scoreAlert (priceMedians exAlerts 3) (kmMedians exAlerts 3) exA11) = some (mkRat 25 3)
    ∧ scoreAlert (priceMedians exAlerts 3) (kmMedians exAlerts 3) exA20 = none
    ∧ (exA11.price / 12000 ≤ 92 / 100 ∨
        (exA11.price / 12000 ≤ 95 / 100 ∧ ∃ mk,
          (kmMedians exAlerts 3).lookup (jsOrUnknown exA11.model) = some mk ∧
          0 < exA11.mileage.getD 0 ∧ exA11.mileage.getD 0 / mk ≤ 90 / 100)) :=
  ⟨by decide, by decide, by decide, by decide,
   ((opportunity_scoring_spec exAlerts 3 10).1 exA11 12000 (by decide) (by decide)).mp
     (by decide)⟩
